import Mathlib

/-!
Verification development for the novel-proofer job orchestration engine.

The Python source is shallowly embedded: dataclasses become structures,
mutating store methods become functions `Store → Store`, timestamps are
rationals, Python ints are integers, and text is `List Char`.
-/

namespace NovelProofer

/-! ## Formatting configuration (novel_proofer/formatting/config.py) -/

structure FormatConfig where
  max_chunk_chars : ℤ := 2000
  paragraph_indent : Bool := true
  indent_with_fullwidth_space : Bool := true
  normalize_blank_lines : Bool := true
  trim_trailing_spaces : Bool := true
  normalize_ellipsis : Bool := true
  normalize_em_dash : Bool := true
  normalize_cjk_punctuation : Bool := true
  fix_cjk_punct_spacing : Bool := true
  normalize_quotes : Bool := false
  deriving Repr, DecidableEq

/-! ## Job data model (novel_proofer/jobs.py, dataclasses ChunkStatus / JobStatus) -/

structure ChunkStatus where
  index : ℤ
  state : String
  started_at : Option ℚ := none
  finished_at : Option ℚ := none
  retries : ℤ := 0
  last_error_code : Option ℤ := none
  last_error_message : Option String := none
  llm_model : Option String := none
  input_chars : Option ℤ := none
  output_chars : Option ℤ := none
  deriving Repr, DecidableEq

structure JobStatus where
  job_id : String
  state : String
  phase : String
  created_at : ℚ
  started_at : Option ℚ
  finished_at : Option ℚ
  input_filename : String
  output_filename : String
  total_chunks : ℤ
  done_chunks : ℤ
  format : FormatConfig := {}
  last_error_code : Option ℤ := none
  last_retry_count : ℤ := 0
  last_llm_model : Option String := none
  stats : String → ℤ := fun _ => 0
  chunk_statuses : List ChunkStatus := []
  error : Option String := none
  output_path : Option String := none
  work_dir : Option String := none
  cleanup_debug_dir : Bool := true

/-- The in-memory `JobStore` registry state: the `_jobs` dict plus the
`_cancelled` and `_paused` id sets (persistence machinery is I/O and is
not part of the functional model). -/
structure Store where
  jobs : String → Option JobStatus
  cancelled : String → Bool
  paused : String → Bool

def setJob (s : Store) (jid : String) (st : JobStatus) : Store :=
  { s with jobs := fun j => if j = jid then some st else s.jobs j }

/-- A `**kwargs` patch for `JobStore.update`.  `none` means the keyword is
absent; `some v` means the keyword is present with value `v` (value `none`
inside corresponds to passing Python `None`). -/
structure UpdatePatch where
  state : Option String := none
  phase : Option String := none
  started_at : Option (Option ℚ) := none
  finished_at : Option (Option ℚ) := none
  error : Option (Option String) := none
  done_chunks : Option ℤ := none
  total_chunks : Option ℤ := none
  last_llm_model : Option (Option String) := none
  output_path : Option (Option String) := none
  work_dir : Option (Option String) := none
  cleanup_debug_dir : Option Bool := none
  last_error_code : Option (Option ℤ) := none
  format : Option FormatConfig := none

/-- The `started_at` keyword of `JobStore.update`: skipped when the field is
already non-null and the incoming value is non-null. -/
def patchStartedAt (p : UpdatePatch) (st : JobStatus) : JobStatus :=
  match p.started_at with
  | none => st
  | some v =>
    match st.started_at, v with
    | some _, some _ => st
    | _, _ => { st with started_at := v }

/-- The `state` keyword of `JobStore.update`: a `paused` job cannot be moved
to `queued`/`running` through `update`. -/
def patchState (p : UpdatePatch) (st : JobStatus) : JobStatus :=
  match p.state with
  | none => st
  | some v =>
    if st.state = "paused" ∧ (v = "queued" ∨ v = "running") then st
    else { st with state := v }

def patchPhase (p : UpdatePatch) (st : JobStatus) : JobStatus :=
  match p.phase with | none => st | some v => { st with phase := v }

def patchFinishedAt (p : UpdatePatch) (st : JobStatus) : JobStatus :=
  match p.finished_at with | none => st | some v => { st with finished_at := v }

def patchError (p : UpdatePatch) (st : JobStatus) : JobStatus :=
  match p.error with | none => st | some v => { st with error := v }

def patchDoneChunks (p : UpdatePatch) (st : JobStatus) : JobStatus :=
  match p.done_chunks with | none => st | some v => { st with done_chunks := v }

def patchTotalChunks (p : UpdatePatch) (st : JobStatus) : JobStatus :=
  match p.total_chunks with | none => st | some v => { st with total_chunks := v }

def patchLastLlmModel (p : UpdatePatch) (st : JobStatus) : JobStatus :=
  match p.last_llm_model with | none => st | some v => { st with last_llm_model := v }

def patchOutputPath (p : UpdatePatch) (st : JobStatus) : JobStatus :=
  match p.output_path with | none => st | some v => { st with output_path := v }

def patchWorkDir (p : UpdatePatch) (st : JobStatus) : JobStatus :=
  match p.work_dir with | none => st | some v => { st with work_dir := v }

def patchCleanup (p : UpdatePatch) (st : JobStatus) : JobStatus :=
  match p.cleanup_debug_dir with | none => st | some v => { st with cleanup_debug_dir := v }

def patchLastErrorCode (p : UpdatePatch) (st : JobStatus) : JobStatus :=
  match p.last_error_code with | none => st | some v => { st with last_error_code := v }

def patchFormat (p : UpdatePatch) (st : JobStatus) : JobStatus :=
  match p.format with | none => st | some v => { st with format := v }

/-- The per-field `setattr` loop of `JobStore.update` (each keyword can occur
at most once, so the iteration order over `kwargs` is immaterial; the two
guarded keywords only ever read fields that no other keyword writes). -/
def applyUpdate (st : JobStatus) (p : UpdatePatch) : JobStatus :=
  patchFormat p (patchLastErrorCode p (patchCleanup p (patchWorkDir p (patchOutputPath p
    (patchLastLlmModel p (patchTotalChunks p (patchDoneChunks p (patchError p
      (patchFinishedAt p (patchPhase p (patchState p (patchStartedAt p st))))))))))))

namespace JobStore

/-- `JobStore.update`: dropped entirely when the job is missing or its state
is `cancelled`; a `state` keyword naming a terminal state clears the paused
flag. -/
def update (s : Store) (jid : String) (p : UpdatePatch) : Store :=
  match s.jobs jid with
  | none => s
  | some st =>
    if st.state = "cancelled" then s
    else
      let st' := applyUpdate st p
      let paused' := match p.state with
        | some v =>
          if v = "done" ∨ v = "error" ∨ v = "cancelled" then
            fun j => if j = jid then false else s.paused j
          else s.paused
        | none => s.paused
      { jobs := fun j => if j = jid then some st' else s.jobs j,
        cancelled := s.cancelled, paused := paused' }

/-- `JobStore.init_chunks`. -/
def init_chunks (s : Store) (jid : String) (total_chunks : ℤ) (llm_model : Option String) : Store :=
  match s.jobs jid with
  | none => s
  | some st =>
    setJob s jid
      { st with
        total_chunks := total_chunks
        done_chunks := 0
        chunk_statuses :=
          (List.range total_chunks.toNat).map fun (i : ℕ) =>
            { index := (i : ℤ), state := "pending", llm_model := llm_model } }

end JobStore

/-- A `**kwargs` patch for `JobStore.update_chunk`. -/
structure ChunkPatch where
  state : Option String := none
  started_at : Option (Option ℚ) := none
  finished_at : Option (Option ℚ) := none
  retries : Option ℤ := none
  last_error_code : Option (Option ℤ) := none
  last_error_message : Option (Option String) := none
  llm_model : Option (Option String) := none
  input_chars : Option (Option ℤ) := none
  output_chars : Option (Option ℤ) := none

def cpatchState (p : ChunkPatch) (cs : ChunkStatus) : ChunkStatus :=
  match p.state with | none => cs | some v => { cs with state := v }

def cpatchStartedAt (p : ChunkPatch) (cs : ChunkStatus) : ChunkStatus :=
  match p.started_at with | none => cs | some v => { cs with started_at := v }

def cpatchFinishedAt (p : ChunkPatch) (cs : ChunkStatus) : ChunkStatus :=
  match p.finished_at with | none => cs | some v => { cs with finished_at := v }

def cpatchRetries (p : ChunkPatch) (cs : ChunkStatus) : ChunkStatus :=
  match p.retries with | none => cs | some v => { cs with retries := v }

def cpatchLastErrorCode (p : ChunkPatch) (cs : ChunkStatus) : ChunkStatus :=
  match p.last_error_code with | none => cs | some v => { cs with last_error_code := v }

def cpatchLastErrorMessage (p : ChunkPatch) (cs : ChunkStatus) : ChunkStatus :=
  match p.last_error_message with | none => cs | some v => { cs with last_error_message := v }

def cpatchLlmModel (p : ChunkPatch) (cs : ChunkStatus) : ChunkStatus :=
  match p.llm_model with | none => cs | some v => { cs with llm_model := v }

def cpatchInputChars (p : ChunkPatch) (cs : ChunkStatus) : ChunkStatus :=
  match p.input_chars with | none => cs | some v => { cs with input_chars := v }

def cpatchOutputChars (p : ChunkPatch) (cs : ChunkStatus) : ChunkStatus :=
  match p.output_chars with | none => cs | some v => { cs with output_chars := v }

/-- The per-field `setattr` loop of `JobStore.update_chunk`. -/
def applyChunkPatch (cs : ChunkStatus) (p : ChunkPatch) : ChunkStatus :=
  cpatchOutputChars p (cpatchInputChars p (cpatchLlmModel p (cpatchLastErrorMessage p
    (cpatchLastErrorCode p (cpatchRetries p (cpatchFinishedAt p
      (cpatchStartedAt p (cpatchState p cs))))))))

namespace JobStore

/-- `JobStore.update_chunk`: no-op on cancelled jobs and out-of-range indices;
maintains `done_chunks` when the chunk's `state` changes. -/
def update_chunk (s : Store) (jid : String) (index : ℤ) (p : ChunkPatch) : Store :=
  match s.jobs jid with
  | none => s
  | some st =>
    if st.state = "cancelled" ∨ s.cancelled jid then s
    else if index < 0 ∨ (st.chunk_statuses.length : ℤ) ≤ index then s
    else
      match st.chunk_statuses.get? index.toNat with
      | none => s
      | some cs =>
        let cs' := applyChunkPatch cs p
        let done' :=
          if p.state.isSome ∧ cs'.state ≠ cs.state then
            let d1 := if cs.state = "done" ∧ 0 < st.done_chunks then st.done_chunks - 1 else st.done_chunks
            if cs'.state = "done" then d1 + 1 else d1
          else st.done_chunks
        setJob s jid
          { st with chunk_statuses := st.chunk_statuses.set index.toNat cs', done_chunks := done' }

/-- `JobStore.add_retry`: bumps the job-level retry counter and last-error
code (the latter only when non-null), and the chunk-level counters when the
index is in range.  Note: unlike `update`/`update_chunk`, there is no
cancelled-state guard. -/
def add_retry (s : Store) (jid : String) (index : ℤ) (inc : ℤ)
    (last_error_code : Option ℤ) (last_error_message : Option String) : Store :=
  match s.jobs jid with
  | none => s
  | some st =>
    let stA :=
      { st with
        last_retry_count := st.last_retry_count + inc
        last_error_code := match last_error_code with
          | some c => some c
          | none => st.last_error_code }
    let stB :=
      if 0 ≤ index ∧ index < (st.chunk_statuses.length : ℤ) then
        { stA with
          chunk_statuses := match st.chunk_statuses.get? index.toNat with
            | none => stA.chunk_statuses
            | some cs =>
              stA.chunk_statuses.set index.toNat
                { cs with
                  retries := cs.retries + inc
                  last_error_code := last_error_code
                  last_error_message := last_error_message } }
      else stA
    setJob s jid stB

/-- `JobStore.add_stat` (also without any cancelled-state guard). -/
def add_stat (s : Store) (jid : String) (key : String) (inc : ℤ) : Store :=
  match s.jobs jid with
  | none => s
  | some st =>
    setJob s jid { st with stats := fun k => if k = key then st.stats key + inc else st.stats k }

/-- `JobStore.cancel` (returns the new store and the boolean result). -/
def cancel (s : Store) (jid : String) (now : ℚ) : Store × Bool :=
  match s.jobs jid with
  | none => (s, false)
  | some st =>
    let st1 :=
      if st.state ≠ "done" ∧ st.state ≠ "error" then
        { st with state := "cancelled", finished_at := some now }
      else st
    let st2 :=
      { st1 with
        chunk_statuses := st1.chunk_statuses.map fun cs =>
          if cs.state = "processing" ∨ cs.state = "retrying" then
            { cs with
              state := "pending"
              started_at := none
              finished_at := none
              last_error_message := match cs.last_error_message with
                | some m => if m = "" then some "cancelled" else some m
                | none => some "cancelled" }
          else cs }
    ({ jobs := fun j => if j = jid then some st2 else s.jobs j,
       cancelled := fun j => if j = jid then true else s.cancelled j,
       paused := fun j => if j = jid then false else s.paused j }, true)

/-- `JobStore.pause`. -/
def pause (s : Store) (jid : String) : Store × Bool :=
  match s.jobs jid with
  | none => (s, false)
  | some st =>
    if st.state ≠ "queued" ∧ st.state ≠ "running" then (s, false)
    else
      ({ jobs := fun j => if j = jid then some { st with state := "paused", finished_at := none } else s.jobs j,
         cancelled := s.cancelled,
         paused := fun j => if j = jid then true else s.paused j }, true)

/-- `JobStore.resume`. -/
def resume (s : Store) (jid : String) : Store × Bool :=
  match s.jobs jid with
  | none => (s, false)
  | some st =>
    if st.state ≠ "paused" ∧ s.paused jid = false then (s, false)
    else
      let st' := if st.state = "paused" then { st with state := "queued", finished_at := none } else st
      ({ jobs := fun j => if j = jid then some st' else s.jobs j,
         cancelled := s.cancelled,
         paused := fun j => if j = jid then false else s.paused j }, true)

end JobStore

/-- Number of chunk records whose state is `done`. -/
def countDone (l : List ChunkStatus) : ℕ :=
  l.countP fun c => c.state == "done"

/-! ## Startup healing (`JobStore._heal_loaded_job`) -/

def jobPhases : List String := ["validate", "process", "merge", "done"]

def healChunk (cs : ChunkStatus) : ChunkStatus :=
  if cs.state = "processing" ∨ cs.state = "retrying" then
    { cs with state := "pending", started_at := none, finished_at := none }
  else cs

/-- Healing step 1: after a restart there is no in-flight work, so
`queued`/`running` jobs become `paused` with `finished_at` cleared. -/
def healState (st : JobStatus) : JobStatus :=
  if st.state = "queued" ∨ st.state = "running" then
    { st with state := "paused", finished_at := none }
  else st

/-- Healing step 2: in-flight chunks go back to `pending`. -/
def healChunks (st : JobStatus) : JobStatus :=
  { st with chunk_statuses := st.chunk_statuses.map healChunk }

/-- Healing step 3: recompute the counters from the chunk list. -/
def healCounters (st : JobStatus) : JobStatus :=
  { st with
    total_chunks := max st.total_chunks (st.chunk_statuses.length : ℤ)
    done_chunks := (countDone st.chunk_statuses : ℤ) }

/-- Healing step 4: phase migration (v1 files have no phase). -/
def healPhaseMigrate (st : JobStatus) : JobStatus :=
  if st.phase ∈ jobPhases then st else { st with phase := "validate" }

/-- Healing step 5: derive the phase from state and chunk states. -/
def healPhaseDerive (st : JobStatus) : JobStatus :=
  if st.chunk_statuses = [] then
    if st.state = "done" then { st with phase := "done" } else { st with phase := "validate" }
  else
    if st.state = "done" then { st with phase := "done" }
    else if st.chunk_statuses.all (fun c => c.state == "done") then { st with phase := "merge" }
    else { st with phase := "process" }

/-- Healing step 6a: a `done` phase with a non-`done` state is demoted. -/
def healPhaseDemote (st : JobStatus) : JobStatus :=
  if st.phase = "done" ∧ st.state ≠ "done" then
    if st.chunk_statuses ≠ [] ∧ st.chunk_statuses.all (fun c => c.state == "done") then
      { st with phase := "merge" }
    else { st with phase := "process" }
  else st

/-- Healing step 6: ensure phase/state compatibility. -/
def healPhaseCompat (st : JobStatus) : JobStatus :=
  if (healPhaseDemote st).state = "done" then { healPhaseDemote st with phase := "done" }
  else healPhaseDemote st

/-- `JobStore._heal_loaded_job`, modelled as a pure function on the loaded
record (the sequence of in-place mutations becomes function composition). -/
def healLoadedJob (st : JobStatus) : JobStatus :=
  healPhaseCompat (healPhaseDerive (healPhaseMigrate (healCounters (healChunks (healState st)))))

/-- A sequence of `update_chunk` calls (each names a job id, a chunk index
and a patch), applied in order. -/
def updateChunkOps (s : Store) (ops : List (String × ℤ × ChunkPatch)) : Store :=
  ops.foldl (fun acc o => JobStore.update_chunk acc o.1 o.2.1 o.2.2) s

/-! ### Concrete fixtures used by witnesses and counterexamples -/

/-- A minimal job record in the given state. -/
def mkJob (state : String) : JobStatus :=
  { job_id := "a", state := state, phase := "process", created_at := 0,
    started_at := none, finished_at := none, input_filename := "in.txt",
    output_filename := "out.txt", total_chunks := 0, done_chunks := 0 }

/-- A one-job store holding the given record under id `"a"`. -/
def mkStore (st : JobStatus) : Store :=
  { jobs := fun j => if j = "a" then some st else none,
    cancelled := fun _ => false, paused := fun _ => false }

/-- A running job whose `started_at` was already set to `123`. -/
def startedJob : JobStatus :=
  { mkJob "running" with started_at := some 123 }

/-! ## Text primitives shared by the runner, merger and chunker -/

/-- Python `str.isspace()` for the characters relevant here (ASCII whitespace
plus the common Unicode space separators Python strips). -/
def pyIsSpace (c : Char) : Bool :=
  decide (c = ' ' ∨ c = '\t' ∨ c = '\n' ∨ c = '\r' ∨ c = '\u000B' ∨ c = '\u000C'
    ∨ c = '\u001C' ∨ c = '\u001D' ∨ c = '\u001E' ∨ c = '\u001F' ∨ c = '\u0085'
    ∨ c = ' ' ∨ c = ' ' ∨ (' ' ≤ c ∧ c ≤ ' ') ∨ c = ' '
    ∨ c = ' ' ∨ c = ' ' ∨ c = ' ' ∨ c = '　')

/-- Python `str.strip()` with no arguments. -/
def pyStrip (l : List Char) : List Char :=
  ((l.dropWhile pyIsSpace).reverse.dropWhile pyIsSpace).reverse

/-- Python `str.rstrip()` with no arguments. -/
def pyRstrip (l : List Char) : List Char :=
  (l.reverse.dropWhile pyIsSpace).reverse

/-! ## Output validation (runner.py `_validate_llm_output`)

The Python float ratio comparisons are modelled with exact rationals, which
agrees with the IEEE-double computation for all feasible string lengths. -/

/-- `_validate_llm_output`: returns the raised error message, or `none` when
the output is accepted. -/
def validateLLMOutput (input output : List Char) (allow_shorter : Bool) : Option String :=
  if 0 < input.length ∧ (pyStrip output).length = 0 then some "LLM output empty"
  else if 200 ≤ input.length ∧ 0 < input.length then
    if (output.length : ℚ) / (input.length : ℚ) < 85 / 100 ∧ allow_shorter = false then
      some "LLM output too short"
    else if (115 / 100 : ℚ) < (output.length : ℚ) / (input.length : ℚ) then
      some "LLM output too long"
    else none
  else none

/-! ## LLM client retry wrapper (llm/client.py `_run_with_retries`)

One call of the `execute` thunk per attempt is modelled by an oracle
`exec : ℕ → ExecResult α` giving the outcome of attempt `i`; the observable
side effects (`on_retry` invocations and backoff sleeps) are collected in an
event trace.  The `should_stop` cancellation hook is `None` here (the claim
is about the retry/backoff policy, not cancellation). -/

inductive ExecResult (α : Type) where
  | success (v : α)
  | llmError (code : Option ℤ) (msg : String)
  | otherError (msg : String)
  deriving DecidableEq

/-- `_RETRYABLE_STATUS`. -/
def retryableStatus : List ℤ := [408, 409, 425, 429, 500, 502, 503, 504]

/-- `_DEFAULT_MAX_RETRIES`. -/
def maxRetries : ℕ := 2

/-- `_DEFAULT_RETRY_BACKOFF_SECONDS`. -/
def backoffBase : ℚ := 1

/-- `attempts = max(0, _DEFAULT_MAX_RETRIES) + 1`. -/
def retryAttempts : ℕ := max 0 maxRetries + 1

inductive RetryEvent where
  | onRetryCall (i : ℕ) (code : Option ℤ) (msg : Option String)
  | backoffSleep (seconds : ℚ)
  deriving DecidableEq

inductive RetryResult (α : Type) where
  | returned (v : α) (retries : ℕ)
  | raised (code : ℤ) (msg : String)
  | exhausted (code : Option ℤ) (msg : Option String)
  deriving DecidableEq

/-- The `for i in range(attempts)` loop of `_run_with_retries`: `fuel` is the
number of attempts still available (`attempts - i`), and `lastCode`/`lastMsg`
are the accumulators.  On an `LLMError` the last code is overwritten (even by
`None`); on any other exception it is kept.  A non-retryable HTTP status
re-raises immediately.  When a retry remains, `on_retry(i+1, code, msg)` fires
and then the loop sleeps `base * 2^i` seconds. -/
def retryLoop {α : Type} (exec : ℕ → ExecResult α) (fuel i : ℕ) (lastCode : Option ℤ)
    (lastMsg : Option String) : List RetryEvent × RetryResult α :=
  if _hfz : fuel = 0 then ([], RetryResult.exhausted lastCode lastMsg)
  else
    match exec i with
    | ExecResult.success v => ([], RetryResult.returned v i)
    | ExecResult.llmError code msg =>
      match code with
      | some c =>
        if c ∈ retryableStatus then
          if fuel = 1 then ([], RetryResult.exhausted (some c) (some msg))
          else
            let r := retryLoop exec (fuel - 1) (i + 1) (some c) (some msg)
            (RetryEvent.onRetryCall (i + 1) (some c) (some msg)
              :: RetryEvent.backoffSleep (backoffBase * 2 ^ i) :: r.1, r.2)
        else ([], RetryResult.raised c msg)
      | none =>
        if fuel = 1 then ([], RetryResult.exhausted none (some msg))
        else
          let r := retryLoop exec (fuel - 1) (i + 1) none (some msg)
          (RetryEvent.onRetryCall (i + 1) none (some msg)
            :: RetryEvent.backoffSleep (backoffBase * 2 ^ i) :: r.1, r.2)
    | ExecResult.otherError msg =>
      if fuel = 1 then ([], RetryResult.exhausted lastCode (some msg))
      else
        let r := retryLoop exec (fuel - 1) (i + 1) lastCode (some msg)
        (RetryEvent.onRetryCall (i + 1) lastCode (some msg)
          :: RetryEvent.backoffSleep (backoffBase * 2 ^ i) :: r.1, r.2)
termination_by fuel
decreasing_by all_goals omega

/-- `_run_with_retries` without a `should_stop` hook. -/
def runWithRetries {α : Type} (exec : ℕ → ExecResult α) :
    List RetryEvent × RetryResult α :=
  retryLoop exec retryAttempts 0 none none

/-- An attempt outcome the loop retries: a retryable HTTP status, an
`LLMError` with no status code, or any other exception. -/
def retriableFailure {α : Type} : ExecResult α → Prop
  | ExecResult.success _ => False
  | ExecResult.llmError (some c) _ => c ∈ retryableStatus
  | ExecResult.llmError none _ => True
  | ExecResult.otherError _ => True

/-! ## Chunking (formatting/chunking.py)

`str.splitlines(keepends=True)` is embedded structurally; a chunk is the
concatenation of a consecutive block of kept-ends lines. -/

/-- The line-boundary characters of Python `str.splitlines`. -/
def lineBreakChar (c : Char) : Bool :=
  decide (c = '\n' ∨ c = '\r' ∨ c = '\u000B' ∨ c = '\u000C' ∨ c = '\u001C'
    ∨ c = '\u001D' ∨ c = '\u001E' ∨ c = '\u0085' ∨ c = ' ' ∨ c = ' ')

/-- Python `text.splitlines(keepends=True)` (with `"\r\n"` kept as a single
boundary). -/
def splitlines_keepends : List Char → List (List Char)
  | [] => []
  | c :: rest =>
    if lineBreakChar c then
      if c = '\r' then
        match rest with
        | '\n' :: r2 => ['\r', '\n'] :: splitlines_keepends r2
        | r => [c] :: splitlines_keepends r
      else [c] :: splitlines_keepends rest
    else
      match splitlines_keepends rest with
      | [] => [[c]]
      | l :: ls => (c :: l) :: ls

/-- Whether a chunk ends with a line-boundary character. -/
def endsBreak (l : List Char) : Bool :=
  match l.getLast? with
  | some c => lineBreakChar c
  | none => false

/-- The chunker's mutable state: emitted chunks, the line buffer, its total
size, and the index of the most recent blank line in the buffer. -/
structure ChunkerSt where
  chunks : List (List Char)
  buf : List (List Char)
  size : ℕ
  lastBlank : Option ℕ

/-- `flush_all` of `chunk_by_lines`. -/
def flushAll (st : ChunkerSt) : ChunkerSt :=
  { chunks := st.chunks ++ (if st.buf = [] then [] else [st.buf.flatten]),
    buf := [], size := 0, lastBlank := none }

/-- `flush_upto(end_idx_inclusive)` of `chunk_by_lines` (the `end < 0` guard
is vacuous: the index is a natural number, as in the source where
`last_blank_idx` is always non-negative when set). -/
def flushUpto (st : ChunkerSt) (k : ℕ) : ChunkerSt :=
  { chunks := st.chunks ++ (if st.buf.take (k + 1) = [] then [] else [(st.buf.take (k + 1)).flatten]),
    buf := st.buf.drop (k + 1),
    size := ((st.buf.drop (k + 1)).map List.length).sum,
    lastBlank :=
      match st.lastBlank with
      | none => none
      | some lb => if lb ≤ k then none else some (lb - (k + 1)) }

/-- The leading flush of the loop body: when the buffer is non-empty and the
line would overflow it, flush at the last blank line if one exists, else
flush everything. -/
def chunkFlushPref (maxChars : ℕ) (st : ChunkerSt) (line : List Char) : ChunkerSt :=
  if st.buf ≠ [] ∧ maxChars < st.size + line.length then
    match st.lastBlank with
    | some lb => flushUpto st lb
    | none => flushAll st
  else st

/-- Appending the line to the buffer (updating `size` and `last_blank_idx`). -/
def chunkPush (st : ChunkerSt) (line : List Char) : ChunkerSt :=
  { st with
    buf := st.buf ++ [line]
    size := st.size + line.length
    lastBlank := if pyStrip line = [] then some st.buf.length else st.lastBlank }

/-- The trailing flush: when already over budget and a blank line exists,
flush at the boundary right away. -/
def chunkFlushOver (maxChars : ℕ) (st : ChunkerSt) : ChunkerSt :=
  if maxChars ≤ st.size then
    match st.lastBlank with
    | some lb => flushUpto st lb
    | none => st
  else st

/-- One iteration of the `for line in lines` loop of `chunk_by_lines`. -/
def chunkStep (maxChars : ℕ) (st : ChunkerSt) (line : List Char) : ChunkerSt :=
  chunkFlushOver maxChars (chunkPush (chunkFlushPref maxChars st line) line)

/-- `chunk_by_lines(text, max_chars)`. -/
def chunk_by_lines (text : List Char) (max_chars : ℤ) : List (List Char) :=
  if max_chars ≤ 0 then [text]
  else
    if splitlines_keepends text = [] then [[]]
    else
      (flushAll ((splitlines_keepends text).foldl (chunkStep max_chars.toNat)
        ⟨[], [], 0, none⟩)).chunks

/-- `chunk_by_lines_with_first_chunk_max(text, max_chars, first_chunk_max_chars)`. -/
def chunk_by_lines_with_first_chunk_max (text : List Char)
    (max_chars first_chunk_max_chars : ℤ) : List (List Char) :=
  if max_chars ≤ 0 then [text]
  else if first_chunk_max_chars ≤ max_chars ∨ first_chunk_max_chars ≤ 0 then
    chunk_by_lines text max_chars
  else
    let first_pass := chunk_by_lines text first_chunk_max_chars
    if first_pass = [] then [text]
    else
      if first_pass.tail.flatten = [] then [first_pass.headI]
      else
        if chunk_by_lines first_pass.tail.flatten max_chars = [[]] then [first_pass.headI]
        else first_pass.headI :: chunk_by_lines first_pass.tail.flatten max_chars

/-- The loop invariant of the chunker: the emitted chunks are the joins of a
partition of the processed lines into non-empty consecutive blocks, and the
buffer holds the unflushed tail. -/
def ChunkerInv (processed : List (List Char)) (st : ChunkerSt) : Prop :=
  ∃ P : List (List (List Char)),
    st.chunks = P.map List.flatten ∧ P.flatten ++ st.buf = processed ∧ ∀ b ∈ P, b ≠ []

/-! ## Runner/store interface used by the PROCESS phase (C10)

`_run_llm_for_indices` (runner.py:413) reads the job snapshot through
`GLOBAL_JOBS.get_summary(job_id)` when `NOVEL_PROOFER_LLM_WRITE_RESP` is not
set.  The methods the `JobStore` class actually defines are listed here,
verbatim from `class JobStore` in jobs.py. -/

def jobStoreMethodNames : List String :=
  ["configure_persistence", "shutdown_persistence", "flush_persistence",
   "load_persisted_jobs", "create", "get", "list", "update", "init_chunks",
   "update_chunk", "add_retry", "add_stat", "cancel", "pause", "resume",
   "delete", "is_cancelled", "is_paused"]

/-- The store method `_run_llm_for_indices` invokes to read the snapshot in
the non-write-resp path. -/
def runLlmForIndicesSnapshotMethod : String := "get_summary"


/-! ## formatting/merge.py (C6)

`_normalize_newlines` returns `text` untouched when it holds no carriage
return, and otherwise applies `replace("\r\n", "\n")` then
`replace("\r", "\n")`; both behaviours coincide with a left-to-right scan
that maps each `"\r\n"` pair and each lone `'\r'` to `'\n'`. -/

def normalizeNewlines : List Char → List Char
  | [] => []
  | c :: rest =>
    if c = '\r' then
      match rest with
      | '\n' :: r2 => '\n' :: normalizeNewlines r2
      | r => '\n' :: normalizeNewlines r
    else c :: normalizeNewlines rest

/-- Python `text.split("\n")` (the separator is the single newline
character; the result always has at least one element). -/
def splitNl : List Char → List (List Char)
  | [] => [[]]
  | c :: rest =>
    if c = '\n' then [] :: splitNl rest
    else
      match splitNl rest with
      | [] => [[c]]
      | l :: ls => (c :: l) :: ls

/-- `_iter_normalized_lines_for_merge(text)`: normalize newlines, split on
`"\n"`, drop the trailing empty element produced by a final newline, then map
whitespace-only lines to `""` and right-strip the rest. -/
def iterNormalizedLinesForMerge (text : List Char) : List (List Char) :=
  let t := normalizeNewlines text
  let lines0 := splitNl t
  let lines := if t.getLast? = some '\n' ∧ lines0 ≠ [] then lines0.dropLast else lines0
  lines.map fun line => if pyStrip line = [] then [] else pyRstrip line

/-- One iteration of the inner `for j, line in enumerate(lines)` loop of
`merge_text_chunks`.  The state is the written output together with the
`prev_nonblank` flag; `p` is the enumerated pair `(j, line)`. -/
def mergeLine (is_last keep : Bool) (lastIdx : ℕ) (st : List Char × Bool)
    (p : ℕ × List Char) : List Char × Bool :=
  if p.2 = [] then (st.1 ++ ['\n'], false)
  else
    let out1 := if st.2 then st.1 ++ ['\n'] else st.1
    let out2 := out1 ++ p.2
    if is_last = true ∧ keep = false ∧ p.1 = lastIdx then (out2, true)
    else (out2 ++ ['\n'], true)

/-- One iteration of the outer `for chunk_text, is_last in chunks` loop of
`merge_text_chunks`. -/
def mergeChunk (st : List Char × Bool) (ck : List Char × Bool) : List Char × Bool :=
  let lines := iterNormalizedLinesForMerge ck.1
  let keep : Bool := decide (ck.1.getLast? = some '\n' ∨ ck.1.getLast? = some '\r')
  lines.enum.foldl (mergeLine ck.2 keep (lines.length - 1)) st

/-- `merge_text_chunks(chunks, writer)`: the text written to the writer. -/
def merge_text_chunks (chunks : List (List Char × Bool)) : List Char :=
  (chunks.foldl mergeChunk ([], false)).1

/-- `merge_text_parts(parts)`. -/
def merge_text_parts (parts : List (List Char)) : List Char :=
  merge_text_chunks (parts.enum.map fun p => (p.2, decide (p.1 = parts.length - 1)))

/-- The paragraph-separation relation on adjacent merged lines: at least one
of the two is blank. -/
def blankSep (a b : List Char) : Prop := a = [] ∨ b = []

/-- Append a newline-free word to the last line of a `splitNl` image. -/
def appLast (w : List Char) : List (List Char) → List (List Char)
  | [] => [w]
  | [l] => [l ++ w]
  | l :: ls => l :: appLast w ls

/-- The merge-loop state invariant: every two adjacent lines written so far
are separated by a blank line, the output is empty or ends with a newline,
and when `prev_nonblank` is false the line before the trailing empty segment
is blank (or absent). -/
def MergeInv (st : List Char × Bool) : Prop :=
  List.Chain' blankSep (splitNl st.1)
  ∧ (splitNl st.1).getLast? = some []
  ∧ (st.2 = false →
      (splitNl st.1).dropLast = [] ∨ ((splitNl st.1).dropLast).getLast? = some [])

/-! ## Theorems -/

theorem setJob_get_self (s : Store) (jid : String) (st : JobStatus) :
    (setJob s jid st).jobs jid = some st := by
  simp [setJob]

theorem setJob_get_other (s : Store) (jid j : String) (st : JobStatus) (h : ¬ j = jid) :
    (setJob s jid st).jobs j = s.jobs j := by
  simp [setJob, h]

theorem patchState_started_at (p : UpdatePatch) (st : JobStatus) :
    (patchState p st).started_at = st.started_at := by
  cases hp : p.state
  · simp [patchState, hp]
  · simp only [patchState, hp]
    split <;> rfl

theorem patchPhase_started_at (p : UpdatePatch) (st : JobStatus) :
    (patchPhase p st).started_at = st.started_at := by
  cases hp : p.phase <;> simp [patchPhase, hp]

theorem patchFinishedAt_started_at (p : UpdatePatch) (st : JobStatus) :
    (patchFinishedAt p st).started_at = st.started_at := by
  cases hp : p.finished_at <;> simp [patchFinishedAt, hp]

theorem patchError_started_at (p : UpdatePatch) (st : JobStatus) :
    (patchError p st).started_at = st.started_at := by
  cases hp : p.error <;> simp [patchError, hp]

theorem patchDoneChunks_started_at (p : UpdatePatch) (st : JobStatus) :
    (patchDoneChunks p st).started_at = st.started_at := by
  cases hp : p.done_chunks <;> simp [patchDoneChunks, hp]

theorem patchTotalChunks_started_at (p : UpdatePatch) (st : JobStatus) :
    (patchTotalChunks p st).started_at = st.started_at := by
  cases hp : p.total_chunks <;> simp [patchTotalChunks, hp]

theorem patchLastLlmModel_started_at (p : UpdatePatch) (st : JobStatus) :
    (patchLastLlmModel p st).started_at = st.started_at := by
  cases hp : p.last_llm_model <;> simp [patchLastLlmModel, hp]

theorem patchOutputPath_started_at (p : UpdatePatch) (st : JobStatus) :
    (patchOutputPath p st).started_at = st.started_at := by
  cases hp : p.output_path <;> simp [patchOutputPath, hp]

theorem patchWorkDir_started_at (p : UpdatePatch) (st : JobStatus) :
    (patchWorkDir p st).started_at = st.started_at := by
  cases hp : p.work_dir <;> simp [patchWorkDir, hp]

theorem patchCleanup_started_at (p : UpdatePatch) (st : JobStatus) :
    (patchCleanup p st).started_at = st.started_at := by
  cases hp : p.cleanup_debug_dir <;> simp [patchCleanup, hp]

theorem patchLastErrorCode_started_at (p : UpdatePatch) (st : JobStatus) :
    (patchLastErrorCode p st).started_at = st.started_at := by
  cases hp : p.last_error_code <;> simp [patchLastErrorCode, hp]

theorem patchFormat_started_at (p : UpdatePatch) (st : JobStatus) :
    (patchFormat p st).started_at = st.started_at := by
  cases hp : p.format <;> simp [patchFormat, hp]

/-- Only the `started_at` keyword of an update patch touches `started_at`. -/
theorem applyUpdate_started_at (st : JobStatus) (p : UpdatePatch) :
    (applyUpdate st p).started_at = (patchStartedAt p st).started_at := by
  simp [applyUpdate, patchFormat_started_at, patchLastErrorCode_started_at,
    patchCleanup_started_at, patchWorkDir_started_at, patchOutputPath_started_at,
    patchLastLlmModel_started_at, patchTotalChunks_started_at, patchDoneChunks_started_at,
    patchError_started_at, patchFinishedAt_started_at, patchPhase_started_at,
    patchState_started_at]

/-- C1 (amended, positive part): once a job's state is `cancelled`, `update`
leaves the whole record — in particular its `state` — unchanged. -/
theorem update_on_cancelled_job_is_noop (s : Store) (jid : String) (st : JobStatus)
    (p : UpdatePatch) (h : s.jobs jid = some st) (hc : st.state = "cancelled") :
    (JobStore.update s jid p).jobs jid = some st := by
  simp [JobStore.update, h, hc]

theorem update_on_cancelled_job_is_noop_witness :
    (JobStore.update (mkStore (mkJob "cancelled")) "a" { state := some "running" }).jobs "a"
      = some (mkJob "cancelled") :=
  update_on_cancelled_job_is_noop _ _ _ _ rfl rfl

/-- C1 (counterexample): the guard does not protect `done` (nor `error`):
an `update` passing `state="running"` on a job whose state is `done` does
change the state field. -/
theorem update_changes_state_of_done_job :
    ((JobStore.update (mkStore (mkJob "done")) "a" { state := some "running" }).jobs "a").map
        JobStatus.state = some "running" ∧ "running" ≠ "done" := by
  constructor
  · rfl
  · decide

/-- C2 (amended): once a job is `cancelled`, the operations `update`,
`update_chunk`, `pause` and `resume` leave its record unchanged, but
`add_retry` still bumps the retry counter and `add_stat` still bumps the
stats, even for a cancelled job. -/
theorem cancelled_job_op_effects (s : Store) (jid : String) (st : JobStatus)
    (h : s.jobs jid = some st) (hc : st.state = "cancelled") :
    (∀ p : UpdatePatch, (JobStore.update s jid p).jobs jid = some st)
    ∧ (∀ (index : ℤ) (cp : ChunkPatch),
        (JobStore.update_chunk s jid index cp).jobs jid = some st)
    ∧ ((JobStore.pause s jid).1.jobs jid = some st ∧ (JobStore.pause s jid).2 = false)
    ∧ ((JobStore.resume s jid).1.jobs jid = some st)
    ∧ (∀ (index inc : ℤ) (code : Option ℤ) (msg : Option String),
        ((JobStore.add_retry s jid index inc code msg).jobs jid).map
          JobStatus.last_retry_count = some (st.last_retry_count + inc))
    ∧ (∀ (key : String) (inc : ℤ),
        ((JobStore.add_stat s jid key inc).jobs jid).map (fun j => j.stats key)
          = some (st.stats key + inc)) := by
  refine ⟨fun p => ?_, fun index cp => ?_, ⟨?_, ?_⟩, ?_, fun index inc code msg => ?_,
    fun key inc => ?_⟩
  · simp [JobStore.update, h, hc]
  · simp [JobStore.update_chunk, h, hc]
  · simp [JobStore.pause, h, hc]
  · simp [JobStore.pause, h, hc]
  · by_cases hp : s.paused jid = false <;>
      simp [JobStore.resume, h, hc, hp, setJob]
  · by_cases hidx : 0 ≤ index ∧ index < (st.chunk_statuses.length : ℤ) <;>
      simp [JobStore.add_retry, h, hidx, setJob]
  · simp [JobStore.add_stat, h, setJob]

theorem cancelled_job_op_effects_witness :
    (JobStore.update (mkStore (mkJob "cancelled")) "a" { phase := some "merge" }).jobs "a"
      = some (mkJob "cancelled") :=
  (cancelled_job_op_effects _ _ _ rfl rfl).1 { phase := some "merge" }

/-- C2 (counterexample): `add_retry` is not a no-op on a cancelled job: it
bumps `last_retry_count` from 0 to 1 (and records the last error code). -/
theorem add_retry_mutates_cancelled_job :
    ((JobStore.add_retry (mkStore (mkJob "cancelled")) "a" 0 1 (some 500) (some "boom")).jobs
        "a").map JobStatus.last_retry_count = some 1
    ∧ (mkJob "cancelled").last_retry_count = 0 := by
  constructor
  · rfl
  · rfl

/-- C8 (amended, positive part): once `started_at` is non-null, an `update`
passing a non-null `started_at` keeps the old value, but an `update` passing
a null `started_at` clears the field. -/
theorem update_started_at_behaviour (s : Store) (jid : String) (st : JobStatus)
    (t : ℚ) (p : UpdatePatch) (h : s.jobs jid = some st)
    (hnc : st.state ≠ "cancelled") (hst : st.started_at = some t) :
    (∀ v : ℚ, p.started_at = some (some v) →
      ((JobStore.update s jid p).jobs jid).map JobStatus.started_at = some (some t))
    ∧ (p.started_at = some none →
      ((JobStore.update s jid p).jobs jid).map JobStatus.started_at = some none) := by
  constructor
  · intro v hv
    simp [JobStore.update, h, hnc, applyUpdate_started_at, patchStartedAt, hv, hst]
  · intro hv
    simp [JobStore.update, h, hnc, applyUpdate_started_at, patchStartedAt, hv, hst]

theorem update_started_at_behaviour_witness :
    ((JobStore.update (mkStore startedJob) "a" { started_at := some (some 456) }).jobs
        "a").map JobStatus.started_at = some (some 123) :=
  (update_started_at_behaviour (mkStore startedJob) "a" startedJob 123
      { started_at := some (some 456) } rfl (by decide) rfl).1 456 rfl

/-- C8 (counterexample): passing `started_at=None` to `update` overwrites a
previously set non-null `started_at` with null, so the field is not
monotonic against null writes. -/
theorem update_started_at_cleared_by_none :
    ((JobStore.update (mkStore startedJob) "a" { started_at := some none }).jobs "a").map
        JobStatus.started_at = some none
    ∧ startedJob.started_at = some 123 := by
  constructor
  · rfl
  · rfl

/-! ### The `done_chunks` counter invariant (C3) -/

theorem countP_set_add {α : Type} (p : α → Bool) (l : List α) (i : ℕ) (c cs : α)
    (h : l.get? i = some cs) :
    (l.set i c).countP p + (if p cs then 1 else 0)
      = l.countP p + (if p c then 1 else 0) := by
  induction l generalizing i with
  | nil => simp at h
  | cons x xs ih =>
    cases i with
    | zero =>
      simp only [List.get?] at h
      cases h
      simp [List.countP_cons]
      omega
    | succ j =>
      simp only [List.get?] at h
      have := ih j h
      simp [List.countP_cons]
      omega

theorem cpatchStartedAt_state (p : ChunkPatch) (cs : ChunkStatus) :
    (cpatchStartedAt p cs).state = cs.state := by
  cases hp : p.started_at <;> simp [cpatchStartedAt, hp]

theorem cpatchFinishedAt_state (p : ChunkPatch) (cs : ChunkStatus) :
    (cpatchFinishedAt p cs).state = cs.state := by
  cases hp : p.finished_at <;> simp [cpatchFinishedAt, hp]

theorem cpatchRetries_state (p : ChunkPatch) (cs : ChunkStatus) :
    (cpatchRetries p cs).state = cs.state := by
  cases hp : p.retries <;> simp [cpatchRetries, hp]

theorem cpatchLastErrorCode_state (p : ChunkPatch) (cs : ChunkStatus) :
    (cpatchLastErrorCode p cs).state = cs.state := by
  cases hp : p.last_error_code <;> simp [cpatchLastErrorCode, hp]

theorem cpatchLastErrorMessage_state (p : ChunkPatch) (cs : ChunkStatus) :
    (cpatchLastErrorMessage p cs).state = cs.state := by
  cases hp : p.last_error_message <;> simp [cpatchLastErrorMessage, hp]

theorem cpatchLlmModel_state (p : ChunkPatch) (cs : ChunkStatus) :
    (cpatchLlmModel p cs).state = cs.state := by
  cases hp : p.llm_model <;> simp [cpatchLlmModel, hp]

theorem cpatchInputChars_state (p : ChunkPatch) (cs : ChunkStatus) :
    (cpatchInputChars p cs).state = cs.state := by
  cases hp : p.input_chars <;> simp [cpatchInputChars, hp]

theorem cpatchOutputChars_state (p : ChunkPatch) (cs : ChunkStatus) :
    (cpatchOutputChars p cs).state = cs.state := by
  cases hp : p.output_chars <;> simp [cpatchOutputChars, hp]

/-- Only the `state` keyword of a chunk patch touches `state`. -/
theorem applyChunkPatch_state (cs : ChunkStatus) (p : ChunkPatch) :
    (applyChunkPatch cs p).state = (cpatchState p cs).state := by
  simp [applyChunkPatch, cpatchOutputChars_state, cpatchInputChars_state,
    cpatchLlmModel_state, cpatchLastErrorMessage_state, cpatchLastErrorCode_state,
    cpatchRetries_state, cpatchFinishedAt_state, cpatchStartedAt_state]

/-- The `done_chunks` bookkeeping invariant of a single job record. -/
def DoneInv (st : JobStatus) : Prop :=
  st.done_chunks = (countDone st.chunk_statuses : ℤ)

theorem init_chunks_doneInv (s : Store) (jid : String) (total : ℤ) (model : Option String) :
    ∀ st', (JobStore.init_chunks s jid total model).jobs jid = some st' → DoneInv st' := by
  intro st' h
  unfold JobStore.init_chunks at h
  cases hj : s.jobs jid with
  | none =>
    rw [hj] at h
    simp only [] at h
    rw [hj] at h
    exact absurd h (by simp)
  | some st =>
    rw [hj] at h
    simp only [] at h
    rw [setJob_get_self] at h
    injection h with h
    subst h
    unfold DoneInv countDone
    have hz : List.countP (fun c => c.state == "done")
        ((List.range total.toNat).map fun (i : ℕ) =>
          ({ index := (i : ℤ), state := "pending", llm_model := model } : ChunkStatus)) = 0 := by
      rw [List.countP_map]
      apply List.countP_eq_zero.mpr
      intro a _
      simp [Function.comp]
    simp [hz]

theorem update_chunk_preserves_doneInv (s : Store) (jid jid' : String) (idx : ℤ)
    (cp : ChunkPatch) (hInv : ∀ st, s.jobs jid = some st → DoneInv st) :
    ∀ st', (JobStore.update_chunk s jid' idx cp).jobs jid = some st' → DoneInv st' := by
  intro st' h
  unfold JobStore.update_chunk at h
  cases hj : s.jobs jid' with
  | none =>
    rw [hj] at h
    simp only [] at h
    exact hInv st' h
  | some st =>
    rw [hj] at h
    simp only [] at h
    by_cases hcan : st.state = "cancelled" ∨ s.cancelled jid' = true
    · rw [if_pos hcan] at h; exact hInv st' h
    · rw [if_neg hcan] at h
      by_cases hrange : idx < 0 ∨ (st.chunk_statuses.length : ℤ) ≤ idx
      · rw [if_pos hrange] at h; exact hInv st' h
      · rw [if_neg hrange] at h
        cases hget : st.chunk_statuses.get? idx.toNat with
        | none => rw [hget] at h; exact hInv st' h
        | some cs =>
          rw [hget] at h
          by_cases hjj : jid = jid'
          · subst hjj
            rw [setJob_get_self] at h
            injection h with h
            have hst : DoneInv st := hInv st hj
            unfold DoneInv countDone at hst ⊢
            subst h
            simp only []
            have key := countP_set_add (fun c => c.state == "done") st.chunk_statuses
              idx.toNat (applyChunkPatch cs cp) cs hget
            simp only [beq_iff_eq] at key
            have hmem : cs ∈ st.chunk_statuses := List.get?_mem hget
            have hposd : cs.state = "done" →
                0 < st.chunk_statuses.countP (fun c => c.state == "done") := by
              intro hd
              refine List.countP_pos_iff.mpr ⟨cs, hmem, ?_⟩
              simp [hd]
            by_cases hcond : cp.state.isSome = true ∧
                (applyChunkPatch cs cp).state ≠ cs.state
            · rw [if_pos hcond]
              by_cases hdone : cs.state = "done"
              · have hpos := hposd hdone
                have hd1 : cs.state = "done" ∧ 0 < st.done_chunks :=
                  ⟨hdone, by rw [hst]; exact_mod_cast hpos⟩
                by_cases hdone' : (applyChunkPatch cs cp).state = "done"
                · rw [if_pos hdone', if_pos hd1]
                  rw [if_pos hdone, if_pos hdone'] at key
                  rw [hst]
                  omega
                · rw [if_neg hdone', if_pos hd1]
                  rw [if_pos hdone, if_neg hdone'] at key
                  rw [hst]
                  omega
              · have hd1 : ¬ (cs.state = "done" ∧ 0 < st.done_chunks) := fun hh => hdone hh.1
                by_cases hdone' : (applyChunkPatch cs cp).state = "done"
                · rw [if_pos hdone', if_neg hd1]
                  rw [if_neg hdone, if_pos hdone'] at key
                  rw [hst]
                  omega
                · rw [if_neg hdone', if_neg hd1]
                  rw [if_neg hdone, if_neg hdone'] at key
                  rw [hst]
                  omega
            · rw [if_neg hcond]
              have hsame : (applyChunkPatch cs cp).state = cs.state := by
                rcases Decidable.not_and_iff_or_not.mp hcond with hnone | heq
                · rw [applyChunkPatch_state]
                  unfold cpatchState
                  cases hps : cp.state
                  · rfl
                  · rw [hps] at hnone; simp at hnone
                · exact Decidable.not_not.mp heq
              rw [hst]
              rw [hsame] at key
              omega
          · rw [setJob_get_other _ _ _ _ hjj] at h
            exact hInv st' h

theorem updateChunkOps_preserves_doneInv (jid : String) :
    ∀ (ops : List (String × ℤ × ChunkPatch)) (s : Store),
      (∀ st, s.jobs jid = some st → DoneInv st) →
      ∀ st', (updateChunkOps s ops).jobs jid = some st' → DoneInv st' := by
  intro ops
  induction ops with
  | nil => intro s hs st' h; exact hs st' h
  | cons o rest ih =>
    intro s hs st' h
    exact ih (JobStore.update_chunk s o.1 o.2.1 o.2.2)
      (update_chunk_preserves_doneInv s jid o.1 o.2.1 o.2.2 hs) st' h

/-- C3: after `init_chunks` and any sequence of `update_chunk` calls, the
job's `done_chunks` counter equals the number of chunk records in state
`done`. -/
theorem done_counter_consistency (s : Store) (jid : String) (total : ℤ)
    (model : Option String) (ops : List (String × ℤ × ChunkPatch)) (st : JobStatus)
    (h : (updateChunkOps (JobStore.init_chunks s jid total model) ops).jobs jid = some st) :
    st.done_chunks = (countDone st.chunk_statuses : ℤ) :=
  updateChunkOps_preserves_doneInv jid ops _ (init_chunks_doneInv s jid total model) st h

/-- A concrete run for the C3 witness: one chunk initialised and then marked
`done`. -/
def c3ResultJob : JobStatus :=
  { mkJob "queued" with
    total_chunks := 1
    done_chunks := 1
    chunk_statuses := [{ index := 0, state := "done", llm_model := none }] }

theorem done_counter_consistency_witness :
    c3ResultJob.done_chunks = (countDone c3ResultJob.chunk_statuses : ℤ) :=
  done_counter_consistency (mkStore (mkJob "queued")) "a" 1 none
    [("a", 0, { state := some "done" })] c3ResultJob rfl

/-! ### Startup healing (C7) -/

theorem healState_chunk_statuses (st : JobStatus) :
    (healState st).chunk_statuses = st.chunk_statuses := by
  unfold healState; split_ifs <;> rfl

theorem healState_total_chunks (st : JobStatus) :
    (healState st).total_chunks = st.total_chunks := by
  unfold healState; split_ifs <;> rfl

theorem healPhaseMigrate_fields (st : JobStatus) :
    (healPhaseMigrate st).state = st.state
    ∧ (healPhaseMigrate st).finished_at = st.finished_at
    ∧ (healPhaseMigrate st).chunk_statuses = st.chunk_statuses
    ∧ (healPhaseMigrate st).done_chunks = st.done_chunks
    ∧ (healPhaseMigrate st).total_chunks = st.total_chunks := by
  unfold healPhaseMigrate; split_ifs <;> simp

theorem healPhaseDerive_fields (st : JobStatus) :
    (healPhaseDerive st).state = st.state
    ∧ (healPhaseDerive st).finished_at = st.finished_at
    ∧ (healPhaseDerive st).chunk_statuses = st.chunk_statuses
    ∧ (healPhaseDerive st).done_chunks = st.done_chunks
    ∧ (healPhaseDerive st).total_chunks = st.total_chunks := by
  unfold healPhaseDerive; split_ifs <;> simp

theorem healPhaseCompat_fields (st : JobStatus) :
    (healPhaseCompat st).state = st.state
    ∧ (healPhaseCompat st).finished_at = st.finished_at
    ∧ (healPhaseCompat st).chunk_statuses = st.chunk_statuses
    ∧ (healPhaseCompat st).done_chunks = st.done_chunks
    ∧ (healPhaseCompat st).total_chunks = st.total_chunks := by
  unfold healPhaseCompat healPhaseDemote; split_ifs <;> simp

/-- The fields of a healed record that C7 talks about, expressed against the
saved record. -/
theorem healLoadedJob_fields (st : JobStatus) :
    (healLoadedJob st).state = (healState st).state
    ∧ (healLoadedJob st).finished_at = (healState st).finished_at
    ∧ (healLoadedJob st).chunk_statuses = st.chunk_statuses.map healChunk
    ∧ (healLoadedJob st).done_chunks = (countDone (st.chunk_statuses.map healChunk) : ℤ)
    ∧ (healLoadedJob st).total_chunks = max st.total_chunks (st.chunk_statuses.length : ℤ) := by
  obtain ⟨m1, m2, m3, m4, m5⟩ :=
    healPhaseMigrate_fields (healCounters (healChunks (healState st)))
  obtain ⟨d1, d2, d3, d4, d5⟩ :=
    healPhaseDerive_fields (healPhaseMigrate (healCounters (healChunks (healState st))))
  obtain ⟨c1, c2, c3, c4, c5⟩ :=
    healPhaseCompat_fields
      (healPhaseDerive (healPhaseMigrate (healCounters (healChunks (healState st)))))
  unfold healLoadedJob
  refine ⟨?_, ?_, ?_, ?_, ?_⟩
  · rw [c1, d1, m1]; rfl
  · rw [c2, d2, m2]; rfl
  · rw [c3, d3, m3]
    show (healChunks (healState st)).chunk_statuses = _
    unfold healChunks
    rw [healState_chunk_statuses]
  · rw [c4, d4, m4]
    show (countDone (healChunks (healState st)).chunk_statuses : ℤ) = _
    unfold healChunks
    rw [healState_chunk_statuses]
  · rw [c5, d5, m5]
    show max (healChunks (healState st)).total_chunks
        ((healChunks (healState st)).chunk_statuses.length : ℤ) = _
    unfold healChunks
    rw [healState_chunk_statuses]
    show max (healState st).total_chunks ((st.chunk_statuses.map healChunk).length : ℤ) = _
    rw [healState_total_chunks, List.length_map]

/-- C7: the healing pass rewrites in-flight states to resumable ones and
restores the counter invariants: `queued`/`running` becomes `paused` with
`finished_at` cleared, `processing`/`retrying` chunks become `pending` with
cleared timestamps, `done_chunks` is recomputed from the chunk list, and
`total_chunks` becomes the maximum of the saved value and the number of
chunk records. -/
theorem heal_loaded_job_spec (st : JobStatus) :
    ((st.state = "queued" ∨ st.state = "running") →
      (healLoadedJob st).state = "paused" ∧ (healLoadedJob st).finished_at = none)
    ∧ (∀ (i : ℕ) (sc hc : ChunkStatus), st.chunk_statuses.get? i = some sc →
        (healLoadedJob st).chunk_statuses.get? i = some hc →
        (sc.state = "processing" ∨ sc.state = "retrying") →
        hc.state = "pending" ∧ hc.started_at = none ∧ hc.finished_at = none)
    ∧ (healLoadedJob st).done_chunks = (countDone (healLoadedJob st).chunk_statuses : ℤ)
    ∧ (healLoadedJob st).total_chunks = max st.total_chunks (st.chunk_statuses.length : ℤ) := by
  obtain ⟨f1, f2, f3, f4, f5⟩ := healLoadedJob_fields st
  refine ⟨?_, ?_, ?_, f5⟩
  · intro hqr
    rw [f1, f2]
    unfold healState
    rw [if_pos hqr]
    exact ⟨rfl, rfl⟩
  · intro i sc hc hsc hhc hstate
    rw [f3, List.get?_map, hsc] at hhc
    injection hhc with hhc
    subst hhc
    unfold healChunk
    rw [if_pos hstate]
    exact ⟨rfl, rfl, rfl⟩
  · rw [f4, f3]

/-- A saved snapshot of a running job with one in-flight chunk, for the C7
witness. -/
def c7SavedChunk : ChunkStatus :=
  { index := 0, state := "processing", started_at := some 5 }

def c7SavedJob : JobStatus :=
  { mkJob "running" with finished_at := some 9, chunk_statuses := [c7SavedChunk] }

def c7HealedChunk : ChunkStatus :=
  { index := 0, state := "pending", started_at := none, finished_at := none }

theorem heal_loaded_job_spec_witness :
    ((healLoadedJob c7SavedJob).state = "paused"
      ∧ (healLoadedJob c7SavedJob).finished_at = none)
    ∧ (c7HealedChunk.state = "pending" ∧ c7HealedChunk.started_at = none
      ∧ c7HealedChunk.finished_at = none) :=
  ⟨(heal_loaded_job_spec c7SavedJob).1 (Or.inr rfl),
   (heal_loaded_job_spec c7SavedJob).2.1 0 c7SavedChunk c7HealedChunk rfl rfl (Or.inl rfl)⟩

/-! ### Output validation (C4) -/

/-- C4: `_validate_llm_output` raises exactly when (a) the input is non-empty
and the stripped output is empty, or (b) the input has length at least 200,
the output/input length ratio is below 0.85 and `allow_shorter` is false
(chunk 0 is called with `allow_shorter=True` and is exempt), or (c) the input
has length at least 200 and the ratio exceeds 1.15. -/
theorem validate_llm_output_iff (input output : List Char) (allow_shorter : Bool) :
    (validateLLMOutput input output allow_shorter).isSome ↔
      (0 < input.length ∧ (pyStrip output).length = 0)
      ∨ (200 ≤ input.length ∧ (output.length : ℚ) / (input.length : ℚ) < 85 / 100
          ∧ allow_shorter = false)
      ∨ (200 ≤ input.length ∧ (115 / 100 : ℚ) < (output.length : ℚ) / (input.length : ℚ)) := by
  unfold validateLLMOutput
  split_ifs with h1 h2 h3 h4
  · exact ⟨fun _ => Or.inl h1, fun _ => rfl⟩
  · exact ⟨fun _ => Or.inr (Or.inl ⟨h2.1, h3.1, h3.2⟩), fun _ => rfl⟩
  · exact ⟨fun _ => Or.inr (Or.inr ⟨h2.1, h4⟩), fun _ => rfl⟩
  · constructor
    · intro hx
      simp at hx
    · intro hx
      exfalso
      rcases hx with hc | hc | hc
      · exact h1 hc
      · exact h3 ⟨hc.2.1, hc.2.2⟩
      · exact h4 hc.2
  · constructor
    · intro hx
      simp at hx
    · intro hx
      exfalso
      rcases hx with hc | hc | hc
      · exact h1 hc
      · exact h2 ⟨hc.1, by omega⟩
      · exact h2 ⟨hc.1, by omega⟩

/-! ### The retry wrapper (C5) -/

theorem retryLoop_step {α : Type} (exec : ℕ → ExecResult α) (fuel i : ℕ)
    (lc : Option ℤ) (lm : Option String) (hf0 : ¬ fuel = 0) (hf1 : ¬ fuel = 1)
    (hr : retriableFailure (exec i)) :
    ∃ code msg, retryLoop exec fuel i lc lm
      = (RetryEvent.onRetryCall (i + 1) code msg
          :: RetryEvent.backoffSleep (backoffBase * 2 ^ i)
          :: (retryLoop exec (fuel - 1) (i + 1) code msg).1,
         (retryLoop exec (fuel - 1) (i + 1) code msg).2) := by
  rcases h : exec i with ⟨v⟩ | ⟨code, m⟩ | ⟨m⟩
  · rw [h] at hr; exact absurd hr (by simp [retriableFailure])
  · rcases code with _ | c
    · refine ⟨none, some m, ?_⟩
      conv_lhs => rw [retryLoop]
      rw [dif_neg hf0, h]
      simp only []
      rw [if_neg hf1]
    · rw [h] at hr
      have hc : c ∈ retryableStatus := hr
      refine ⟨some c, some m, ?_⟩
      conv_lhs => rw [retryLoop]
      rw [dif_neg hf0, h]
      simp only []
      rw [if_pos hc, if_neg hf1]
  · refine ⟨lc, some m, ?_⟩
    conv_lhs => rw [retryLoop]
    rw [dif_neg hf0, h]
    simp only []
    rw [if_neg hf1]

theorem retryLoop_now {α : Type} (exec : ℕ → ExecResult α) (fuel i : ℕ)
    (lc : Option ℤ) (lm : Option String) (hf0 : ¬ fuel = 0)
    (hnr : ¬ retriableFailure (exec i)) :
    (retryLoop exec fuel i lc lm).1 = []
    ∧ (match (retryLoop exec fuel i lc lm).2 with
       | RetryResult.returned v r => r = i ∧ exec i = ExecResult.success v
       | RetryResult.raised c msg =>
           c ∉ retryableStatus ∧ exec i = ExecResult.llmError (some c) msg
       | RetryResult.exhausted _ _ => False) := by
  rcases h : exec i with ⟨v⟩ | ⟨code, m⟩ | ⟨m⟩
  · have e : retryLoop exec fuel i lc lm = ([], RetryResult.returned v i) := by
      conv_lhs => rw [retryLoop]
      rw [dif_neg hf0, h]
    rw [e]
    exact ⟨rfl, rfl, rfl⟩
  · rcases code with _ | c
    · rw [h] at hnr; exact absurd (by trivial) hnr
    · have hc : c ∉ retryableStatus := by
        intro hmem
        rw [h] at hnr
        exact hnr hmem
      have e : retryLoop exec fuel i lc lm = ([], RetryResult.raised c m) := by
        conv_lhs => rw [retryLoop]
        rw [dif_neg hf0, h]
        simp only []
        rw [if_neg hc]
      rw [e]
      exact ⟨rfl, hc, rfl⟩
  · rw [h] at hnr; exact absurd (by trivial) hnr

theorem retryLoop_fuel1 {α : Type} (exec : ℕ → ExecResult α) (i : ℕ)
    (lc : Option ℤ) (lm : Option String) :
    (retryLoop exec 1 i lc lm).1 = []
    ∧ (match (retryLoop exec 1 i lc lm).2 with
       | RetryResult.returned v r => r = i ∧ exec i = ExecResult.success v
       | RetryResult.raised c msg =>
           c ∉ retryableStatus ∧ exec i = ExecResult.llmError (some c) msg
       | RetryResult.exhausted _ _ => retriableFailure (exec i)) := by
  rcases h : exec i with ⟨v⟩ | ⟨code, m⟩ | ⟨m⟩
  · have e : retryLoop exec 1 i lc lm = ([], RetryResult.returned v i) := by
      conv_lhs => rw [retryLoop]
      rw [dif_neg (by decide : ¬ (1 : ℕ) = 0), h]
    rw [e]
    exact ⟨rfl, rfl, rfl⟩
  · rcases code with _ | c
    · have e : retryLoop exec 1 i lc lm = ([], RetryResult.exhausted none (some m)) := by
        conv_lhs => rw [retryLoop]
        rw [dif_neg (by decide : ¬ (1 : ℕ) = 0), h]
        simp only []
        rw [if_true]
      rw [e]
      simp [retriableFailure, h]
    · by_cases hc : c ∈ retryableStatus
      · have e : retryLoop exec 1 i lc lm
            = ([], RetryResult.exhausted (some c) (some m)) := by
          conv_lhs => rw [retryLoop]
          rw [dif_neg (by decide : ¬ (1 : ℕ) = 0), h]
          simp only []
          rw [if_pos hc, if_true]
        rw [e]
        simpa [retriableFailure, h] using hc
      · have e : retryLoop exec 1 i lc lm = ([], RetryResult.raised c m) := by
          conv_lhs => rw [retryLoop]
          rw [dif_neg (by decide : ¬ (1 : ℕ) = 0), h]
          simp only []
          rw [if_neg hc]
        rw [e]
        exact ⟨rfl, hc, rfl⟩
  · have e : retryLoop exec 1 i lc lm = ([], RetryResult.exhausted lc (some m)) := by
      conv_lhs => rw [retryLoop]
      rw [dif_neg (by decide : ¬ (1 : ℕ) = 0), h]
      simp only []
      rw [if_true]
    rw [e]
    simp [retriableFailure, h]

/-- C5: the resilient retry wrapper performs at most 2 retries (3 attempts).
The event trace consists of `n ≤ 2` pairs: an `on_retry(k+1, ...)` invocation
immediately followed by a `base * 2^k` backoff sleep, one pair per failed
retryable attempt `k`.  A non-retryable HTTP status raises immediately (no
further attempt, no `on_retry`, no sleep after it); only retryable statuses
and errors without a status code are retried, and exhaustion happens exactly
after 2 retries. -/
theorem retry_wrapper_spec {α : Type} (exec : ℕ → ExecResult α) :
    ∃ n : ℕ, n ≤ 2
      ∧ (runWithRetries exec).1.length = 2 * n
      ∧ (∀ k, k < n → retriableFailure (exec k))
      ∧ (∀ k, k < n → ∃ code msg,
          (runWithRetries exec).1.get? (2 * k)
            = some (RetryEvent.onRetryCall (k + 1) code msg)
          ∧ (runWithRetries exec).1.get? (2 * k + 1)
            = some (RetryEvent.backoffSleep (backoffBase * 2 ^ k)))
      ∧ (match (runWithRetries exec).2 with
         | RetryResult.returned v r => r = n ∧ exec n = ExecResult.success v
         | RetryResult.raised c msg =>
             c ∉ retryableStatus ∧ exec n = ExecResult.llmError (some c) msg
         | RetryResult.exhausted _ _ => n = 2 ∧ retriableFailure (exec 2)) := by
  have hrw : runWithRetries exec = retryLoop exec 3 0 none none := rfl
  by_cases h0 : retriableFailure (exec 0)
  · obtain ⟨c0, m0, hs0⟩ := retryLoop_step exec 3 0 none none (by decide) (by decide) h0
    norm_num at hs0
    by_cases h1 : retriableFailure (exec 1)
    · obtain ⟨c1, m1, hs1⟩ := retryLoop_step exec 2 1 c0 m0 (by decide) (by decide) h1
      norm_num at hs1
      obtain ⟨hf1, hf2⟩ := retryLoop_fuel1 exec 2 c1 m1
      have hRun : runWithRetries exec
          = ([RetryEvent.onRetryCall 1 c0 m0,
              RetryEvent.backoffSleep (backoffBase * 2 ^ 0),
              RetryEvent.onRetryCall 2 c1 m1,
              RetryEvent.backoffSleep (backoffBase * 2 ^ 1)],
             (retryLoop exec 1 2 c1 m1).2) := by
        rw [hrw, hs0, hs1, hf1]
        norm_num
      refine ⟨2, by norm_num, ?_, ?_, ?_, ?_⟩
      · rw [hRun]
        rfl
      · intro k hk
        interval_cases k
        · exact h0
        · exact h1
      · intro k hk
        interval_cases k
        · exact ⟨c0, m0, by rw [hRun]; rfl, by rw [hRun]; rfl⟩
        · exact ⟨c1, m1, by rw [hRun]; rfl, by rw [hRun]; rfl⟩
      · rw [hRun]
        rcases hx : (retryLoop exec 1 2 c1 m1).2 with ⟨v, r⟩ | ⟨c, msg⟩ | ⟨c, msg⟩ <;>
          rw [hx] at hf2 <;> simp only []
        · exact hf2
        · exact hf2
        · exact ⟨trivial, hf2⟩
    · obtain ⟨hn1, hn2⟩ := retryLoop_now exec 2 1 c0 m0 (by decide) h1
      have hRun : runWithRetries exec
          = ([RetryEvent.onRetryCall 1 c0 m0,
              RetryEvent.backoffSleep (backoffBase * 2 ^ 0)],
             (retryLoop exec 2 1 c0 m0).2) := by
        rw [hrw, hs0, hn1]
        norm_num
      refine ⟨1, by norm_num, ?_, ?_, ?_, ?_⟩
      · rw [hRun]
        rfl
      · intro k hk
        interval_cases k
        exact h0
      · intro k hk
        interval_cases k
        exact ⟨c0, m0, by rw [hRun]; rfl, by rw [hRun]; rfl⟩
      · rw [hRun]
        rcases hx : (retryLoop exec 2 1 c0 m0).2 with ⟨v, r⟩ | ⟨c, msg⟩ | ⟨c, msg⟩ <;>
          rw [hx] at hn2 <;> simp only []
        · exact hn2
        · exact hn2
        · exact absurd hn2 (by simp)
  · obtain ⟨hn1, hn2⟩ := retryLoop_now exec 3 0 none none (by decide) h0
    refine ⟨0, by norm_num, ?_, ?_, ?_, ?_⟩
    · rw [hrw, hn1]
      rfl
    · intro k hk
      omega
    · intro k hk
      omega
    · rw [hrw]
      rcases hx : (retryLoop exec 3 0 none none).2 with ⟨v, r⟩ | ⟨c, msg⟩ | ⟨c, msg⟩ <;>
        rw [hx] at hn2 <;> simp only []
      · exact hn2
      · exact hn2
      · exact absurd hn2 (by simp)

/-- A concrete run for the C5 witness: every attempt fails with HTTP 400,
which is not retryable, so the wrapper raises immediately with an empty
event trace (no on_retry, no sleep). -/
def badRequestFailure : ℕ → ExecResult ℕ :=
  fun _ => ExecResult.llmError (some 400) "bad request"

theorem retry_wrapper_spec_witness :
    (runWithRetries badRequestFailure).1.length = 0
    ∧ (400 : ℤ) ∉ retryableStatus := by
  obtain ⟨n, _hn, hlen, _hf, _hev, hres⟩ := retry_wrapper_spec badRequestFailure
  have hx : runWithRetries badRequestFailure = ([], RetryResult.raised 400 "bad request") := by
    show retryLoop badRequestFailure 3 0 none none = _
    conv_lhs => rw [retryLoop]
    norm_num [badRequestFailure, retryableStatus]
  rw [hx] at hres
  simp only [] at hres
  exact ⟨by rw [hx]; rfl, hres.1⟩

/-! ### The PROCESS-phase snapshot read (C10) -/

/-- C10: the snapshot accessor `_run_llm_for_indices` calls in the
non-write-resp path is not among the methods the `JobStore` class defines,
so `GLOBAL_JOBS.get_summary(job_id)` raises `AttributeError` instead of
reaching the scheduling loop. -/
theorem get_summary_not_a_jobstore_method :
    ¬ runLlmForIndicesSnapshotMethod ∈ jobStoreMethodNames := by decide

/-! ### Chunking: splitlines lemmas (C9) -/

theorem splitlines_eq_rn (r2 : List Char) :
    splitlines_keepends ('\r' :: '\n' :: r2) = ['\r', '\n'] :: splitlines_keepends r2 := rfl

theorem splitlines_eq_r_other (r : List Char) (hno : ∀ r2, r = '\n' :: r2 → False) :
    splitlines_keepends ('\r' :: r) = ['\r'] :: splitlines_keepends r := by
  rw [splitlines_keepends.eq_def]
  simp only []
  split
  · rfl
  · rename_i hf
    exact absurd (by decide) hf

theorem splitlines_eq_break (c : Char) (rest : List Char) (h1 : lineBreakChar c = true)
    (hc : ¬ c = '\r') :
    splitlines_keepends (c :: rest) = [c] :: splitlines_keepends rest := by
  rw [splitlines_keepends.eq_def]
  simp only []
  rw [if_pos h1, if_neg hc]

theorem splitlines_eq_nonbreak (c : Char) (rest : List Char) (h1 : ¬ lineBreakChar c = true) :
    splitlines_keepends (c :: rest)
      = match splitlines_keepends rest with
        | [] => [[c]]
        | l :: ls => (c :: l) :: ls := by
  rw [splitlines_keepends.eq_def]
  simp only []
  rw [if_neg h1]

theorem splitlines_ne_nil (s : List Char) (h : s ≠ []) : splitlines_keepends s ≠ [] := by
  cases s with
  | nil => exact absurd rfl h
  | cons c rest =>
    rw [splitlines_keepends.eq_def]
    simp only []
    split_ifs
    · split <;> simp
    · simp
    · cases splitlines_keepends rest <;> simp

theorem splitlines_flatten (s : List Char) : (splitlines_keepends s).flatten = s := by
  induction s using splitlines_keepends.induct with
  | case1 => rfl
  | case2 r2 h1 ih =>
    rw [splitlines_eq_rn]
    simp [ih]
  | case3 r hno h1 ih =>
    rw [splitlines_eq_r_other r hno]
    simp [ih]
  | case4 c rest h1 hc ih =>
    rw [splitlines_eq_break c rest h1 hc]
    simp [ih]
  | case5 c rest h1 heq ih =>
    rw [splitlines_eq_nonbreak c rest h1, heq]
    have hr : rest = [] := by
      by_contra hne
      exact splitlines_ne_nil rest hne heq
    simp [hr]
  | case6 c rest h1 l ls heq ih =>
    rw [splitlines_eq_nonbreak c rest h1, heq]
    rw [heq] at ih
    simp only [List.flatten_cons] at ih ⊢
    simp [ih]

theorem splitlines_mem_ne_nil (s : List Char) :
    ∀ l ∈ splitlines_keepends s, l ≠ [] := by
  induction s using splitlines_keepends.induct with
  | case1 => simp [splitlines_keepends]
  | case2 r2 h1 ih =>
    rw [splitlines_eq_rn]
    intro l hl
    rcases List.mem_cons.mp hl with rfl | hl
    · simp
    · exact ih l hl
  | case3 r hno h1 ih =>
    rw [splitlines_eq_r_other r hno]
    intro l hl
    rcases List.mem_cons.mp hl with rfl | hl
    · simp
    · exact ih l hl
  | case4 c rest h1 hc ih =>
    rw [splitlines_eq_break c rest h1 hc]
    intro l hl
    rcases List.mem_cons.mp hl with rfl | hl
    · simp
    · exact ih l hl
  | case5 c rest h1 heq ih =>
    rw [splitlines_eq_nonbreak c rest h1, heq]
    simp
  | case6 c rest h1 l ls heq ih =>
    rw [splitlines_eq_nonbreak c rest h1, heq]
    intro x hx
    rcases List.mem_cons.mp hx with rfl | hx
    · simp
    · exact ih x (by rw [heq]; exact List.mem_cons_of_mem _ hx)

theorem endsBreak_cons (c : Char) (l : List Char) (h : l ≠ []) :
    endsBreak (c :: l) = endsBreak l := by
  unfold endsBreak
  cases l with
  | nil => exact absurd rfl h
  | cons x xs => rw [List.getLast?_cons_cons]

theorem splitlines_inner (s : List Char) :
    ∀ A l B, splitlines_keepends s = A ++ l :: B → B ≠ [] → endsBreak l = true := by
  induction s using splitlines_keepends.induct with
  | case1 =>
    intro A l B hAB _
    rw [splitlines_keepends] at hAB
    exact absurd hAB.symm (by simp)
  | case2 r2 h1 ih =>
    intro A l B hAB hB
    rw [splitlines_eq_rn] at hAB
    cases A with
    | nil =>
      simp at hAB
      rw [← hAB.1]
      rfl
    | cons a A' =>
      simp at hAB
      exact ih A' l B hAB.2 hB
  | case3 r hno h1 ih =>
    intro A l B hAB hB
    rw [splitlines_eq_r_other r hno] at hAB
    cases A with
    | nil =>
      simp at hAB
      rw [← hAB.1]
      rfl
    | cons a A' =>
      simp at hAB
      exact ih A' l B hAB.2 hB
  | case4 c rest h1 hc ih =>
    intro A l B hAB hB
    rw [splitlines_eq_break c rest h1 hc] at hAB
    cases A with
    | nil =>
      simp at hAB
      rw [← hAB.1]
      unfold endsBreak
      simp [h1]
    | cons a A' =>
      simp at hAB
      exact ih A' l B hAB.2 hB
  | case5 c rest h1 heq ih =>
    intro A l B hAB hB
    rw [splitlines_eq_nonbreak c rest h1, heq] at hAB
    cases A with
    | nil =>
      simp at hAB
      exact absurd hAB.2 hB
    | cons a A' =>
      exfalso
      have hlen := congrArg List.length hAB
      simp at hlen
  | case6 c rest h1 l0 ls heq ih =>
    intro A l B hAB hB
    rw [splitlines_eq_nonbreak c rest h1, heq] at hAB
    cases A with
    | nil =>
      simp at hAB
      have hl0 : l0 ≠ [] := splitlines_mem_ne_nil rest l0 (by rw [heq]; simp)
      rw [← hAB.1, endsBreak_cons c l0 hl0]
      refine ih [] l0 ls (by rw [heq]; rfl) ?_
      rw [hAB.2]
      exact hB
    | cons a A' =>
      simp at hAB
      exact ih (l0 :: A') l B (by rw [heq, hAB.2]; rfl) hB

/-! ### Chunking: the loop invariant (C9) -/

theorem flushAll_inv (proc : List (List Char)) (st : ChunkerSt)
    (h : ChunkerInv proc st) : ChunkerInv proc (flushAll st) := by
  obtain ⟨P, hchunks, hjoin, hne⟩ := h
  by_cases hbuf : st.buf = []
  · refine ⟨P, ?_, ?_, hne⟩
    · simp [flushAll, hbuf, hchunks]
    · show P.flatten ++ [] = proc
      rw [hbuf] at hjoin
      exact hjoin
  · refine ⟨P ++ [st.buf], ?_, ?_, ?_⟩
    · simp [flushAll, hbuf, hchunks]
    · show (P ++ [st.buf]).flatten ++ [] = proc
      rw [List.flatten_append]
      simpa using hjoin
    · intro b hb
      rcases List.mem_append.mp hb with hb | hb
      · exact hne b hb
      · simp at hb
        rw [hb]
        exact hbuf

theorem flushUpto_inv (proc : List (List Char)) (st : ChunkerSt) (k : ℕ)
    (h : ChunkerInv proc st) : ChunkerInv proc (flushUpto st k) := by
  obtain ⟨P, hchunks, hjoin, hne⟩ := h
  by_cases hhead : st.buf.take (k + 1) = []
  · refine ⟨P, ?_, ?_, hne⟩
    · simp [flushUpto, hhead, hchunks]
    · show P.flatten ++ st.buf.drop (k + 1) = proc
      have hbuf : st.buf = [] := by
        rcases List.take_eq_nil_iff.mp hhead with h0 | h0
        · exact absurd h0 (by simp)
        · exact h0
      rw [hbuf] at hjoin ⊢
      simpa using hjoin
  · refine ⟨P ++ [st.buf.take (k + 1)], ?_, ?_, ?_⟩
    · simp [flushUpto, hhead, hchunks]
    · show (P ++ [st.buf.take (k + 1)]).flatten ++ st.buf.drop (k + 1) = proc
      rw [List.flatten_append]
      simp only [List.flatten_cons, List.flatten_nil, List.append_nil, List.append_assoc]
      rw [List.take_append_drop]
      exact hjoin
    · intro b hb
      rcases List.mem_append.mp hb with hb | hb
      · exact hne b hb
      · simp at hb
        rw [hb]
        exact hhead

theorem chunkFlushPref_inv (m : ℕ) (proc : List (List Char)) (st : ChunkerSt)
    (line : List Char) (h : ChunkerInv proc st) :
    ChunkerInv proc (chunkFlushPref m st line) := by
  unfold chunkFlushPref
  split_ifs with hc
  · rcases st.lastBlank with _ | lb
    · exact flushAll_inv proc st h
    · exact flushUpto_inv proc st lb h
  · exact h

theorem chunkPush_inv (proc : List (List Char)) (st : ChunkerSt) (line : List Char)
    (h : ChunkerInv proc st) : ChunkerInv (proc ++ [line]) (chunkPush st line) := by
  obtain ⟨P, hchunks, hjoin, hne⟩ := h
  refine ⟨P, ?_, ?_, hne⟩
  · simpa [chunkPush] using hchunks
  · show P.flatten ++ (st.buf ++ [line]) = proc ++ [line]
    rw [← List.append_assoc, hjoin]

theorem chunkFlushOver_inv (m : ℕ) (proc : List (List Char)) (st : ChunkerSt)
    (h : ChunkerInv proc st) : ChunkerInv proc (chunkFlushOver m st) := by
  unfold chunkFlushOver
  split_ifs with hc
  · rcases st.lastBlank with _ | lb
    · exact h
    · exact flushUpto_inv proc st lb h
  · exact h

theorem chunkStep_inv (m : ℕ) (proc : List (List Char)) (st : ChunkerSt)
    (line : List Char) (h : ChunkerInv proc st) :
    ChunkerInv (proc ++ [line]) (chunkStep m st line) :=
  chunkFlushOver_inv m _ _ (chunkPush_inv _ _ line (chunkFlushPref_inv m proc st line h))

theorem foldl_chunkStep_inv (m : ℕ) :
    ∀ (ls proc : List (List Char)) (st : ChunkerSt), ChunkerInv proc st →
      ChunkerInv (proc ++ ls) (ls.foldl (chunkStep m) st) := by
  intro ls
  induction ls with
  | nil =>
    intro proc st h
    simpa using h
  | cons l ls ih =>
    intro proc st h
    have h1 := chunkStep_inv m proc st l h
    have h2 := ih (proc ++ [l]) (chunkStep m st l) h1
    simpa using h2

theorem chunk_by_lines_partition (text : List Char) (m : ℤ) (hm : ¬ m ≤ 0)
    (hl : ¬ splitlines_keepends text = []) :
    ∃ P : List (List (List Char)), chunk_by_lines text m = P.map List.flatten
      ∧ P.flatten = splitlines_keepends text ∧ ∀ b ∈ P, b ≠ [] := by
  have h0 : ChunkerInv [] (⟨[], [], 0, none⟩ : ChunkerSt) := ⟨[], rfl, rfl, by simp⟩
  have hf := foldl_chunkStep_inv m.toNat (splitlines_keepends text) [] _ h0
  simp only [List.nil_append] at hf
  obtain ⟨P, hchunks, hjoin, hne⟩ := flushAll_inv _ _ hf
  refine ⟨P, ?_, ?_, hne⟩
  · rw [chunk_by_lines, if_neg hm, if_neg hl]
    exact hchunks
  · have hbuf : (flushAll ((splitlines_keepends text).foldl (chunkStep m.toNat)
        ⟨[], [], 0, none⟩)).buf = [] := rfl
    rw [hbuf] at hjoin
    simpa using hjoin

theorem flatten_map_flatten (P : List (List (List Char))) :
    (P.map List.flatten).flatten = P.flatten.flatten := by
  induction P with
  | nil => rfl
  | cons b P ih => simp [ih]

/-- Concatenating the chunks of `chunk_by_lines` restores the text. -/
theorem chunk_by_lines_flatten (text : List Char) (m : ℤ) :
    (chunk_by_lines text m).flatten = text := by
  by_cases hm : m ≤ 0
  · rw [chunk_by_lines, if_pos hm]
    simp
  · by_cases hl : splitlines_keepends text = []
    · rw [chunk_by_lines, if_neg hm, if_pos hl]
      have ht := splitlines_flatten text
      rw [hl] at ht
      simp [← ht]
    · obtain ⟨P, hc, hj, _⟩ := chunk_by_lines_partition text m hm hl
      rw [hc, flatten_map_flatten, hj, splitlines_flatten]

theorem get?_drop_cons {α : Type} (P : List α) (i : ℕ) (b : α) (hb : P.get? i = some b) :
    P.drop i = b :: P.drop (i + 1) := by
  induction P generalizing i with
  | nil => simp at hb
  | cons x xs ih =>
    cases i with
    | zero =>
      simp at hb
      simp [hb]
    | succ j =>
      simp only [List.get?] at hb
      have := ih j hb
      simpa using this

theorem partition_inner_endsBreak (s : List Char) (P : List (List (List Char)))
    (hjoin : P.flatten = splitlines_keepends s) (hne : ∀ b ∈ P, b ≠ [])
    (i : ℕ) (b b' : List (List Char)) (hb : P.get? i = some b)
    (hb' : P.get? (i + 1) = some b') : endsBreak b.flatten = true := by
  have hbne : b ≠ [] := hne b (List.get?_mem hb)
  have hbsplit : b.dropLast ++ [b.getLast hbne] = b := List.dropLast_append_getLast hbne
  have hPb : P = P.take i ++ b :: P.drop (i + 1) := by
    conv_lhs => rw [← List.take_append_drop i P]
    rw [get?_drop_cons P i b hb]
  have hb'ne : b' ≠ [] := hne b' (List.get?_mem hb')
  have hdrop : P.drop (i + 1) = b' :: P.drop (i + 2) := get?_drop_cons P (i + 1) b' hb'
  have hdecomp : splitlines_keepends s
      = ((P.take i).flatten ++ b.dropLast) ++ b.getLast hbne :: (P.drop (i + 1)).flatten := by
    rw [← hjoin]
    conv_lhs => rw [hPb]
    rw [List.flatten_append, List.flatten_cons]
    conv_lhs => rw [← hbsplit]
    simp [List.append_assoc]
  have hBne : (P.drop (i + 1)).flatten ≠ [] := by
    rw [hdrop, List.flatten_cons]
    intro hcontra
    exact hb'ne (List.append_eq_nil.mp hcontra).1
  have hlEnds : endsBreak (b.getLast hbne) = true :=
    splitlines_inner s _ (b.getLast hbne) _ hdecomp hBne
  have hlne : b.getLast hbne ≠ [] := by
    refine splitlines_mem_ne_nil s (b.getLast hbne) ?_
    rw [← hjoin]
    exact List.mem_flatten.mpr ⟨b, List.get?_mem hb, List.getLast_mem hbne⟩
  have hbf : b.flatten = b.dropLast.flatten ++ b.getLast hbne := by
    conv_lhs => rw [← hbsplit]
    simp
  rw [hbf]
  unfold endsBreak at hlEnds ⊢
  rw [List.getLast?_append_of_ne_nil _ hlne]
  exact hlEnds

/-- Every chunk of `chunk_by_lines` that has a successor ends at a line
boundary of the input. -/
theorem chunk_by_lines_boundary (text : List Char) (m : ℤ) (i : ℕ) (c c' : List Char)
    (h1 : (chunk_by_lines text m).get? i = some c)
    (h2 : (chunk_by_lines text m).get? (i + 1) = some c') : endsBreak c = true := by
  by_cases hm : m ≤ 0
  · rw [chunk_by_lines, if_pos hm] at h2
    simp at h2
  · by_cases hl : splitlines_keepends text = []
    · rw [chunk_by_lines, if_neg hm, if_pos hl] at h2
      simp at h2
    · obtain ⟨P, hc, hj, hne⟩ := chunk_by_lines_partition text m hm hl
      rw [hc] at h1 h2
      rw [List.get?_map] at h1 h2
      rcases hq1 : P.get? i with _ | b
      · rw [hq1] at h1
        simp at h1
      rcases hq2 : P.get? (i + 1) with _ | b'
      · rw [hq2] at h2
        simp at h2
      rw [hq1] at h1
      simp at h1
      rw [← h1]
      exact partition_inner_endsBreak text P hj hne i b b' hq1 hq2

theorem headI_append_tail_flatten {α : Type} (l : List (List α)) :
    l.headI ++ l.tail.flatten = l.flatten := by
  cases l with
  | nil => rfl
  | cons a t => simp

theorem chunk_by_lines_with_first_flatten (text : List Char) (m f : ℤ) :
    (chunk_by_lines_with_first_chunk_max text m f).flatten = text := by
  simp only [chunk_by_lines_with_first_chunk_max]
  split_ifs with hm hf hfp hrest hdeg
  · simp
  · exact chunk_by_lines_flatten text m
  · simp
  · have h2 : (chunk_by_lines text f).headI ++ (chunk_by_lines text f).tail.flatten
        = text := by
      rw [headI_append_tail_flatten]
      exact chunk_by_lines_flatten text f
    rw [hrest, List.append_nil] at h2
    simpa using h2
  · exfalso
    have h := chunk_by_lines_flatten ((chunk_by_lines text f).tail.flatten) m
    rw [hdeg] at h
    simp only [List.flatten_cons, List.flatten_nil, List.append_nil] at h
    exact hrest h.symm
  · rw [List.flatten_cons, chunk_by_lines_flatten _ m, headI_append_tail_flatten,
      chunk_by_lines_flatten]

theorem chunk_by_lines_with_first_boundary (text : List Char) (m f : ℤ) (i : ℕ)
    (c c' : List Char)
    (h1 : (chunk_by_lines_with_first_chunk_max text m f).get? i = some c)
    (h2 : (chunk_by_lines_with_first_chunk_max text m f).get? (i + 1) = some c') :
    endsBreak c = true := by
  simp only [chunk_by_lines_with_first_chunk_max] at h1 h2
  split_ifs at h1 h2 with hm hf hfp hrest hdeg
  · simp at h2
  · exact chunk_by_lines_boundary text m i c c' h1 h2
  · simp at h2
  · simp at h2
  · simp at h2
  · rcases i with _ | j
    · simp only [List.get?_cons_zero] at h1
      injection h1 with h1
      rw [← h1]
      rcases hfp0 : chunk_by_lines text f with _ | ⟨a, tl⟩
      · rw [hfp0] at hfp
        exact absurd rfl hfp
      rcases tl with _ | ⟨y, ys⟩
      · rw [hfp0] at hrest
        simp at hrest
      · have hg0 : (chunk_by_lines text f).get? 0 = some a := by
          rw [hfp0]
          rfl
        have hg1 : (chunk_by_lines text f).get? 1 = some y := by
          rw [hfp0]
          rfl
        have hb := chunk_by_lines_boundary text f 0 a y hg0 hg1
        simpa using hb
    · simp only [List.get?_cons_succ] at h1 h2
      exact chunk_by_lines_boundary _ m j c c' h1 h2

/-- C9: for every text and every integer budget (including non-positive budgets
and empty text), concatenating the chunks of `chunk_by_lines` — and likewise of
`chunk_by_lines_with_first_chunk_max` — restores the original text exactly, and
every chunk that has a successor ends with a line-boundary character of the
input, i.e. every chunk boundary falls at a line boundary. -/
theorem chunking_roundtrip_and_line_boundaries (text : List Char) (m f : ℤ) :
    ((chunk_by_lines text m).flatten = text
      ∧ (chunk_by_lines_with_first_chunk_max text m f).flatten = text)
    ∧ (∀ i c c', (chunk_by_lines text m).get? i = some c →
        (chunk_by_lines text m).get? (i + 1) = some c' → endsBreak c = true)
    ∧ (∀ i c c', (chunk_by_lines_with_first_chunk_max text m f).get? i = some c →
        (chunk_by_lines_with_first_chunk_max text m f).get? (i + 1) = some c' →
        endsBreak c = true) :=
  ⟨⟨chunk_by_lines_flatten text m, chunk_by_lines_with_first_flatten text m f⟩,
    fun i c c' ha hb => chunk_by_lines_boundary text m i c c' ha hb,
    fun i c c' ha hb => chunk_by_lines_with_first_boundary text m f i c c' ha hb⟩

/-- Concrete instance of C9 on the text `"a\n\nbb"` with budgets 2 and 3:
the two-pass chunker yields `["a\n\n", "bb"]` and the plain chunker
`["a\n", "\n", "bb"]`; both first chunks end at a line boundary and both
chunkings concatenate back to the text. -/
theorem chunking_roundtrip_and_line_boundaries_witness :
    endsBreak ['a', '\n'] = true
      ∧ endsBreak ['a', '\n', '\n'] = true
      ∧ (chunk_by_lines ['a', '\n', '\n', 'b', 'b'] 2).flatten
          = ['a', '\n', '\n', 'b', 'b'] := by
  refine ⟨?_, ?_,
    (chunking_roundtrip_and_line_boundaries ['a', '\n', '\n', 'b', 'b'] 2 3).1.1⟩
  · exact (chunking_roundtrip_and_line_boundaries ['a', '\n', '\n', 'b', 'b'] 2 3).2.1
      0 ['a', '\n'] ['\n'] (by decide) (by decide)
  · exact (chunking_roundtrip_and_line_boundaries ['a', '\n', '\n', 'b', 'b'] 2 3).2.2
      0 ['a', '\n', '\n'] ['b', 'b'] (by decide) (by decide)

/-! ### Merging: the paragraph-separation invariant (C6) -/

theorem splitNl_ne_nil (s : List Char) : splitNl s ≠ [] := by
  cases s with
  | nil => simp [splitNl]
  | cons c rest =>
    simp only [splitNl]
    split_ifs
    · simp
    · rcases h : splitNl rest with _ | ⟨l, ls⟩ <;> simp

theorem appLast_singleton (w l : List Char) : appLast w [l] = [l ++ w] := rfl

theorem appLast_cons₂ (w x y : List Char) (ys : List (List Char)) :
    appLast w (x :: y :: ys) = x :: appLast w (y :: ys) := rfl

theorem splitNl_append_nl (s : List Char) :
    splitNl (s ++ ['\n']) = splitNl s ++ [[]] := by
  induction s with
  | nil => rfl
  | cons c rest ih =>
    have hne := splitNl_ne_nil rest
    rcases h : splitNl rest with _ | ⟨l, ls⟩
    · exact absurd h hne
    by_cases hc : c = '\n'
    · simp only [List.cons_append, splitNl, if_pos hc, List.append_eq, ih, h,
        List.cons_append]
    · simp only [List.cons_append, splitNl, if_neg hc, List.append_eq, ih, h,
        List.cons_append]

theorem splitNl_nl_free (w : List Char) (hw : ∀ c ∈ w, ¬ c = '\n') :
    splitNl w = [w] := by
  induction w with
  | nil => rfl
  | cons c rest ih =>
    simp only [splitNl, if_neg (hw c (List.mem_cons_self c rest))]
    rw [ih fun x hx => hw x (List.mem_cons_of_mem c hx)]

theorem splitNl_append_word (w : List Char) (hw : ∀ c ∈ w, ¬ c = '\n') :
    ∀ s, splitNl (s ++ w) = appLast w (splitNl s) := by
  intro s
  induction s with
  | nil =>
    rw [List.nil_append, splitNl_nl_free w hw]
    rfl
  | cons c rest ih =>
    have hne := splitNl_ne_nil rest
    rcases h : splitNl rest with _ | ⟨l, ls⟩
    · exact absurd h hne
    by_cases hc : c = '\n'
    · simp only [List.cons_append, splitNl, if_pos hc, List.append_eq, ih, h,
        appLast_cons₂]
    · cases ls with
      | nil =>
        simp only [List.cons_append, splitNl, if_neg hc, List.append_eq, ih, h,
          appLast_singleton, List.cons_append]
      | cons m ms =>
        simp only [List.cons_append, splitNl, if_neg hc, List.append_eq, ih, h,
          appLast_cons₂]

theorem appLast_snoc (w l : List Char) (S : List (List Char)) :
    appLast w (S ++ [l]) = S ++ [l ++ w] := by
  induction S with
  | nil => rfl
  | cons x S ih =>
    rcases hS : S ++ [l] with _ | ⟨y, ys⟩
    · exact absurd hS (by simp)
    · calc appLast w ((x :: S) ++ [l]) = appLast w (x :: y :: ys) := by
            rw [List.cons_append, hS]
        _ = x :: appLast w (y :: ys) := rfl
        _ = x :: appLast w (S ++ [l]) := by rw [hS]
        _ = x :: (S ++ [l ++ w]) := by rw [ih]
        _ = (x :: S) ++ [l ++ w] := rfl

theorem splitNl_no_nl (s : List Char) : ∀ l ∈ splitNl s, '\n' ∉ l := by
  induction s with
  | nil =>
    intro l hl
    simp [splitNl] at hl
    simp [hl]
  | cons c rest ih =>
    intro l hl
    by_cases hc : c = '\n'
    · simp only [splitNl, if_pos hc] at hl
      rcases List.mem_cons.mp hl with hl | hl
      · simp [hl]
      · exact ih l hl
    · simp only [splitNl, if_neg hc] at hl
      rcases h : splitNl rest with _ | ⟨m, ms⟩
      · rw [h] at hl
        simp at hl
        rw [hl]
        simp only [List.mem_singleton]
        intro hx
        exact hc hx.symm
      · rw [h] at hl
        simp only [] at hl
        rcases List.mem_cons.mp hl with hl | hl
        · rw [hl]
          intro hx
          rcases List.mem_cons.mp hx with hx | hx
          · exact hc hx.symm
          · exact ih m (by rw [h]; exact List.mem_cons_self _ _) hx
        · exact ih l (by rw [h]; exact List.mem_cons_of_mem _ hl)

theorem mem_pyRstrip {c : Char} {l : List Char} (h : c ∈ pyRstrip l) : c ∈ l := by
  unfold pyRstrip at h
  rw [List.mem_reverse] at h
  have h2 := (List.dropWhile_sublist pyIsSpace).subset h
  rw [List.mem_reverse] at h2
  exact h2

theorem iterNorm_no_nl (t : List Char) :
    ∀ l ∈ iterNormalizedLinesForMerge t, '\n' ∉ l := by
  intro l hl
  simp only [iterNormalizedLinesForMerge] at hl
  rw [List.mem_map] at hl
  obtain ⟨line, hline, hmap⟩ := hl
  rw [← hmap]
  split_ifs with hblank
  · simp
  · intro hx
    have hx2 := mem_pyRstrip hx
    have hline2 : line ∈ splitNl (normalizeNewlines t) := by
      split_ifs at hline with hcond
      · exact (List.dropLast_sublist _).subset hline
      · exact hline
    exact splitNl_no_nl _ line hline2 hx2

theorem eq_snoc_of_getLast {α : Type} {l : List α} {a : α} (h : l.getLast? = some a) :
    ∃ S, l = S ++ [a] := by
  have hne : l ≠ [] := by
    intro he
    rw [he] at h
    simp at h
  have h2 := List.getLast?_eq_getLast l hne
  rw [h2] at h
  have h3 : l.getLast hne = a := by
    injection h
  refine ⟨l.dropLast, ?_⟩
  rw [← h3]
  exact (List.dropLast_append_getLast hne).symm

theorem computeL_pt (s w : List Char) (hw : ∀ c ∈ w, ¬ c = '\n') :
    splitNl (((s ++ ['\n']) ++ w) ++ ['\n']) = splitNl s ++ [w, []] := by
  rw [splitNl_append_nl, splitNl_append_word w hw, splitNl_append_nl, appLast_snoc]
  simp

theorem computeL_pf (s w : List Char) (S : List (List Char))
    (hw : ∀ c ∈ w, ¬ c = '\n') (hS : splitNl s = S ++ [[]]) :
    splitNl ((s ++ w) ++ ['\n']) = S ++ [w, []] := by
  rw [splitNl_append_nl, splitNl_append_word w hw, hS, appLast_snoc]
  simp

theorem computeN_pt (s w : List Char) (hw : ∀ c ∈ w, ¬ c = '\n') :
    splitNl ((s ++ ['\n']) ++ w) = splitNl s ++ [w] := by
  rw [splitNl_append_word w hw, splitNl_append_nl, appLast_snoc]
  simp

theorem computeN_pf (s w : List Char) (S : List (List Char))
    (hw : ∀ c ∈ w, ¬ c = '\n') (hS : splitNl s = S ++ [[]]) :
    splitNl (s ++ w) = S ++ [w] := by
  rw [splitNl_append_word w hw, hS, appLast_snoc]
  simp

theorem chain'_snoc2 (L : List (List Char)) (w : List Char)
    (hL : List.Chain' blankSep L) (hlast : L = [] ∨ L.getLast? = some []) :
    List.Chain' blankSep (L ++ [w, []]) := by
  rw [List.chain'_append]
  refine ⟨hL, ?_, ?_⟩
  · simp [List.chain'_cons, blankSep, List.chain'_singleton]
  · intro x hx y hy
    simp at hy
    rcases hlast with hlast | hlast
    · rw [hlast] at hx
      simp at hx
    · rw [hlast] at hx
      simp at hx
      rw [hx]
      exact Or.inl rfl

theorem chain'_snoc1 (L : List (List Char)) (w : List Char)
    (hL : List.Chain' blankSep L) (hlast : L = [] ∨ L.getLast? = some []) :
    List.Chain' blankSep (L ++ [w]) := by
  rw [List.chain'_append]
  refine ⟨hL, List.chain'_singleton _, ?_⟩
  · intro x hx y hy
    simp at hy
    rcases hlast with hlast | hlast
    · rw [hlast] at hx
      simp at hx
    · rw [hlast] at hx
      simp at hx
      rw [hx]
      exact Or.inl rfl

theorem mergeLine_blank_inv (fl keep : Bool) (li : ℕ) (st : List Char × Bool)
    (p : ℕ × List Char) (hp : p.2 = []) (h : MergeInv st) :
    MergeInv (mergeLine fl keep li st p) := by
  obtain ⟨h1, h2, h3⟩ := h
  simp only [mergeLine, if_pos hp]
  refine ⟨?_, ?_, ?_⟩
  · rw [splitNl_append_nl, List.chain'_append]
    refine ⟨h1, List.chain'_singleton _, ?_⟩
    intro x hx y hy
    simp at hy
    rw [hy]
    exact Or.inr rfl
  · rw [splitNl_append_nl]
    exact List.getLast?_concat _
  · intro _
    rw [splitNl_append_nl, List.dropLast_concat]
    exact Or.inr h2

theorem mergeLine_nb_inv (fl keep : Bool) (li : ℕ) (st : List Char × Bool)
    (p : ℕ × List Char) (hp : ¬ p.2 = []) (hnl : '\n' ∉ p.2)
    (hcond : ¬ (fl = true ∧ keep = false ∧ p.1 = li)) (h : MergeInv st) :
    MergeInv (mergeLine fl keep li st p) := by
  obtain ⟨h1, h2, h3⟩ := h
  have hw : ∀ c ∈ p.2, ¬ c = '\n' := fun c hc he => hnl (he ▸ hc)
  simp only [mergeLine, if_neg hp, if_neg hcond]
  by_cases hprev : st.2 = true
  · rw [if_pos hprev]
    refine ⟨?_, ?_, ?_⟩
    · rw [computeL_pt st.1 p.2 hw]
      exact chain'_snoc2 _ _ h1 (Or.inr h2)
    · rw [computeL_pt st.1 p.2 hw, List.getLast?_append_of_ne_nil _ (by simp)]
      simp
    · intro hx
      simp at hx
  · rw [if_neg hprev]
    obtain ⟨S, hS⟩ := eq_snoc_of_getLast h2
    have hchS : List.Chain' blankSep S := by
      rw [hS] at h1
      exact (List.chain'_append.mp h1).1
    have hlastS : S = [] ∨ S.getLast? = some [] := by
      have h4 := h3 (by simpa using hprev)
      rw [hS, List.dropLast_concat] at h4
      exact h4
    refine ⟨?_, ?_, ?_⟩
    · rw [computeL_pf st.1 p.2 S hw hS]
      exact chain'_snoc2 _ _ hchS hlastS
    · rw [computeL_pf st.1 p.2 S hw hS, List.getLast?_append_of_ne_nil _ (by simp)]
      simp
    · intro hx
      simp at hx

theorem mergeLine_chain (fl keep : Bool) (li : ℕ) (st : List Char × Bool)
    (p : ℕ × List Char) (hnl : '\n' ∉ p.2) (h : MergeInv st) :
    List.Chain' blankSep (splitNl (mergeLine fl keep li st p).1) := by
  by_cases hp : p.2 = []
  · exact (mergeLine_blank_inv fl keep li st p hp h).1
  by_cases hcond : fl = true ∧ keep = false ∧ p.1 = li
  · obtain ⟨h1, h2, h3⟩ := h
    have hw : ∀ c ∈ p.2, ¬ c = '\n' := fun c hc he => hnl (he ▸ hc)
    simp only [mergeLine, if_neg hp, if_pos hcond]
    by_cases hprev : st.2 = true
    · rw [if_pos hprev]
      show List.Chain' blankSep (splitNl ((st.1 ++ ['\n']) ++ p.2))
      rw [computeN_pt st.1 p.2 hw]
      exact chain'_snoc1 _ _ h1 (Or.inr h2)
    · rw [if_neg hprev]
      obtain ⟨S, hS⟩ := eq_snoc_of_getLast h2
      have hchS : List.Chain' blankSep S := by
        rw [hS] at h1
        exact (List.chain'_append.mp h1).1
      have hlastS : S = [] ∨ S.getLast? = some [] := by
        have h4 := h3 (by simpa using hprev)
        rw [hS, List.dropLast_concat] at h4
        exact h4
      show List.Chain' blankSep (splitNl (st.1 ++ p.2))
      rw [computeN_pf st.1 p.2 S hw hS]
      exact chain'_snoc1 _ _ hchS hlastS
  · exact (mergeLine_nb_inv fl keep li st p hp hnl hcond h).1

theorem foldl_mergeLine_inv (fl keep : Bool) (li : ℕ) :
    ∀ (ps : List (ℕ × List Char)) (st : List Char × Bool),
      (∀ p ∈ ps, '\n' ∉ p.2) →
      (∀ p ∈ ps, ¬ (fl = true ∧ keep = false ∧ p.1 = li)) →
      MergeInv st → MergeInv (ps.foldl (mergeLine fl keep li) st) := by
  intro ps
  induction ps with
  | nil =>
    intro st _ _ h
    exact h
  | cons p ps ih =>
    intro st hnl hcond h
    simp only [List.foldl_cons]
    have h2 : MergeInv (mergeLine fl keep li st p) := by
      by_cases hp : p.2 = []
      · exact mergeLine_blank_inv fl keep li st p hp h
      · exact mergeLine_nb_inv fl keep li st p hp
          (hnl p (List.mem_cons_self _ _)) (hcond p (List.mem_cons_self _ _)) h
    exact ih _ (fun q hq => hnl q (List.mem_cons_of_mem _ hq))
      (fun q hq => hcond q (List.mem_cons_of_mem _ hq)) h2

theorem mem_enum_bound {line : List Char} {j : ℕ} {ls : List (List Char)}
    (h : (j, line) ∈ ls.enum) : j < ls.length ∧ line ∈ ls := by
  have h2 := List.mem_enumFrom (show (j, line) ∈ List.enumFrom 0 ls from h)
  obtain ⟨-, hlt, heq⟩ := h2
  refine ⟨by omega, ?_⟩
  rw [heq]
  exact List.getElem_mem _

theorem mergeChunk_false_inv (st : List Char × Bool) (text : List Char)
    (h : MergeInv st) : MergeInv (mergeChunk st (text, false)) := by
  simp only [mergeChunk]
  apply foldl_mergeLine_inv
  · intro p hp
    obtain ⟨j, line⟩ := p
    exact iterNorm_no_nl text line (mem_enum_bound hp).2
  · intro p hp
    simp
  · exact h

theorem mergeChunk_chain (st : List Char × Bool) (ck : List Char × Bool)
    (h : MergeInv st) :
    List.Chain' blankSep (splitNl (mergeChunk st ck).1) := by
  simp only [mergeChunk]
  by_cases hl : iterNormalizedLinesForMerge ck.1 = []
  · rw [hl]
    exact h.1
  · obtain ⟨I, a, hIa⟩ : ∃ I a, iterNormalizedLinesForMerge ck.1 = I ++ [a] :=
      ⟨_, _, (List.dropLast_append_getLast hl).symm⟩
    rw [hIa, List.enum_append, List.foldl_append]
    have hlen : (I ++ [a]).length - 1 = I.length := by simp
    rw [hlen]
    have hInv : MergeInv (I.enum.foldl (mergeLine ck.2
        (decide (ck.1.getLast? = some '\n' ∨ ck.1.getLast? = some '\r')) I.length) st) := by
      apply foldl_mergeLine_inv
      · intro p hp
        obtain ⟨j, line⟩ := p
        have hm := (mem_enum_bound hp).2
        exact iterNorm_no_nl ck.1 line (by rw [hIa]; exact List.mem_append_left _ hm)
      · intro p hp
        obtain ⟨j, line⟩ := p
        have hj := (mem_enum_bound hp).1
        intro hcontra
        have hj2 := hcontra.2.2
        simp at hj2
        omega
      · exact h
    have hstep := mergeLine_chain ck.2
      (decide (ck.1.getLast? = some '\n' ∨ ck.1.getLast? = some '\r')) I.length
      _ (I.length, a)
      (iterNorm_no_nl ck.1 a (by rw [hIa]; exact List.mem_append_right _ (List.mem_singleton.mpr rfl)))
      hInv
    simpa using hstep

theorem foldl_mergeChunk_chain :
    ∀ (chunks : List (List Char × Bool)) (st : List Char × Bool),
      (∀ p ∈ chunks.dropLast, p.2 = false) → MergeInv st →
      List.Chain' blankSep (splitNl (chunks.foldl mergeChunk st).1) := by
  intro chunks
  induction chunks with
  | nil =>
    intro st _ h
    exact h.1
  | cons c rest ih =>
    intro st hflags h
    cases rest with
    | nil =>
      simp only [List.foldl_cons, List.foldl_nil]
      exact mergeChunk_chain st c h
    | cons d ds =>
      have hc : c.2 = false := hflags c (by
        rw [List.dropLast_cons₂]
        exact List.mem_cons_self _ _)
      have h2 : MergeInv (mergeChunk st c) := by
        have hck : (c.1, false) = c := by
          rw [← hc]
        rw [← hck]
        exact mergeChunk_false_inv st c.1 h
      simp only [List.foldl_cons]
      exact ih (mergeChunk st c)
        (fun p hp => hflags p (by
          rw [List.dropLast_cons₂]
          exact List.mem_cons_of_mem _ hp)) h2

/-- C6: for every sequence of chunk texts — with the `is_last` flag set only on
the final chunk, as `merge_text_parts` and the pipeline produce — the text
written by `merge_text_chunks` never contains two adjacent non-blank lines: of
any two consecutive lines of the output, at least one is blank, whether the two
lines come from one chunk or from adjacent chunks. -/
theorem merge_paragraph_invariant (chunks : List (List Char × Bool))
    (hflags : ∀ p ∈ chunks.dropLast, p.2 = false) (i : ℕ) (l l' : List Char)
    (h1 : (splitNl (merge_text_chunks chunks)).get? i = some l)
    (h2 : (splitNl (merge_text_chunks chunks)).get? (i + 1) = some l') :
    l = [] ∨ l' = [] := by
  have hinit : MergeInv ([], false) := by
    refine ⟨?_, ?_, ?_⟩ <;> simp [splitNl]
  have hch : List.Chain' blankSep (splitNl (merge_text_chunks chunks)) :=
    foldl_mergeChunk_chain chunks ([], false) hflags hinit
  rw [List.chain'_iff_get] at hch
  have hlen2 : i + 1 < (splitNl (merge_text_chunks chunks)).length :=
    (List.get?_eq_some.mp h2).1
  have hlen1 : i < (splitNl (merge_text_chunks chunks)).length := by omega
  have hb := hch i (by omega)
  rw [List.get?_eq_get hlen1] at h1
  rw [List.get?_eq_get hlen2] at h2
  injection h1 with h1
  injection h2 with h2
  rw [← h1, ← h2]
  exact hb

/-- Concrete instance of C6: merging the chunks `"a\n"` and `"b"` writes
`"a\nb"` as `"a\n\nb"`, whose consecutive line pairs each contain a blank
line. -/
theorem merge_paragraph_invariant_witness :
    (∀ p ∈ ([(['a', '\n'], false), (['b'], true)] :
        List (List Char × Bool)).dropLast, p.2 = false)
    ∧ (splitNl (merge_text_chunks [(['a', '\n'], false), (['b'], true)])).get? 0
        = some ['a']
    ∧ (splitNl (merge_text_chunks [(['a', '\n'], false), (['b'], true)])).get? 1
        = some []
    ∧ (['a'] = ([] : List Char) ∨ ([] : List Char) = ([] : List Char)) := by
  refine ⟨by decide, by decide, by decide, ?_⟩
  exact merge_paragraph_invariant [(['a', '\n'], false), (['b'], true)]
    (by decide) 0 ['a'] [] (by decide) (by decide)

end NovelProofer
